import Mathlib

/-! # gotraceui: flame graph sample extraction and flame graph colours

A shallow embedding of `cmd/gotraceui/flamegraph.go` and of the colour table of
`cmd/gotraceui/colors.go`.

* Go strings are byte sequences (`GoString`); `strings.Index` and its relatives are
  embedded from their documentation.
* `int` and `int64` (`time.Duration`) are integers; the 64-bit additions of the code wrap
  explicitly.
* `float32` and `float64` values are the rationals they denote. Every conversion and
  every arithmetic operation rounds its exact result to the nearest representable value,
  ties to even, each operation on its own (no fused multiply-add).
* A panic is an `Except.error`.
* Go maps that are only read at a key are total functions; the map that is ranged over is
  the list of its entries, in the order of the iteration.
* The flame graph under construction is the sequence of the `AddSample` calls made on it:
  the package `widget` is not among the sources.
-/

namespace Gotraceui

/-! ## Strings -/

/-- A Go string: an immutable sequence of bytes. -/
abbrev GoString := List Nat

/-- The bytes (UTF-8) of a string literal of the source. -/
def lit (s : String) : GoString := s.toUTF8.toList.map UInt8.toNat

/-! ## Binary floating point -/

/-- Floor of the base 2 logarithm of `n` (0 for `n < 2`), by repeated halving; the first
argument bounds the number of halvings. -/
def log2Fuel : Nat → Nat → Nat
  | 0, _ => 0
  | fuel + 1, n => if n < 2 then 0 else log2Fuel fuel (n / 2) + 1

/-- Floor of the base 2 logarithm of a natural number. -/
def log2Nat (n : Nat) : Nat := log2Fuel n n

/-- The exponent `e` with `2 ^ e ≤ q < 2 ^ (e + 1)` of a positive rational. -/
def ilog2 (q : ℚ) : Int :=
  let e0 : Int := (log2Nat q.num.natAbs : Int) - (log2Nat q.den : Int)
  if (2 : ℚ) ^ e0 ≤ q then e0 else e0 - 1

/-- Rounding to the nearest integer, ties to the even one. -/
def roundHalfEven (z : ℚ) : Int :=
  let f : Int := ⌊z⌋
  if z - f < 1 / 2 then f
  else if 1 / 2 < z - f then f + 1
  else if f % 2 = 0 then f else f + 1

/-- The nearest value of a binary floating point format with a `p` bit significand and
least normal exponent `emin`, ties to even. Overflow to an infinity is outside the model:
the values of this program stay far below the largest finite value of their format. -/
def roundBinary (p : Nat) (emin : Int) (q : ℚ) : ℚ :=
  if q = 0 then 0
  else
    let e : Int := max (ilog2 |q|) emin
    let u : ℚ := (2 : ℚ) ^ (e - ((p : Int) - 1))
    (roundHalfEven (q / u) : ℚ) * u

/-- Rounding to `float32`. -/
def f32 (q : ℚ) : ℚ := roundBinary 24 (-126) q

/-- Rounding to `float64`. -/
def f64 (q : ℚ) : ℚ := roundBinary 53 (-1022) q

/-- The function `math.Round`: the nearest integer, halves away from zero. -/
def mathRound (x : ℚ) : Int :=
  if 0 ≤ x then ⌊x + 1 / 2⌋ else -⌊-x + 1 / 2⌋

/-- Wrap-around of a signed 64-bit integer. -/
def wrapInt64 (x : Int) : Int := (x + 2 ^ 63) % 2 ^ 64 - 2 ^ 63

/-! ## The trace, as far as `flamegraph.go` reads it -/

/-- Modelled from the spec: the type `ptrace.SchedulingState` is declared in the package
`trace/ptrace`, which is not among the sources. Its values are the constants that
`flamegraph.go` and `colors.go` name (pairwise distinct: they label the cases of one
switch and the keys of one array literal) and `other code` for every remaining value of
the underlying integer type. -/
inductive SchedulingState
  | StateInactive
  | StateActive
  | StateGCIdle
  | StateGCDedicated
  | StateGCFractional
  | StateBlocked
  | StateBlockedSend
  | StateBlockedRecv
  | StateBlockedSelect
  | StateBlockedSync
  | StateBlockedSyncOnce
  | StateBlockedSyncTriggeringGC
  | StateBlockedCond
  | StateBlockedNet
  | StateBlockedGC
  | StateBlockedSyscall
  | StateStuck
  | StateReady
  | StateCreated
  | StateDone
  | StateGCMarkAssist
  | StateGCSweep
  | StateUserRegion
  | StateStack
  | StateCPUSample
  | StateRunningG
  | StateRunningP
  | other (code : Nat)
  deriving DecidableEq, Repr

/-- Modelled from the spec: `ptrace.Span` is not among the sources. A span has a state, the
identifier of its event, and the value `Duration` that its method `Duration()` returns
(the span's wall-clock duration, a `time.Duration`). -/
structure Span where
  State : SchedulingState
  Event : Nat
  Duration : Int
  deriving DecidableEq, Repr

/-- Modelled from the spec: `ptrace.Processor` is not among the sources; `flamegraph.go`
reads its spans. -/
structure Processor where
  Spans : List Span
  deriving DecidableEq, Repr

/-- Modelled from the spec: `ptrace.Goroutine` is not among the sources; `flamegraph.go`
reads its identifier and its spans. -/
structure Goroutine where
  ID : Nat
  Spans : List Span
  deriving DecidableEq, Repr

/-- Modelled from the spec: the event type is not among the sources; `flamegraph.go` reads
the identifier of the event's stack. -/
structure Event where
  StkID : Nat
  deriving DecidableEq, Repr

/-- Modelled from the spec: the frame type of `trace.PCs` is not among the sources;
`flamegraph.go` reads the function name. -/
structure Frame where
  Fn : GoString
  deriving DecidableEq, Repr

/-- Modelled from the spec: `ptrace.Trace` is not among the sources. `flamegraph.go` reads
the processors, the CPU samples of each goroutine (a Go map from goroutine identifiers to
event identifiers, here the list of its entries, ranged over in list order and looked up by
key), the stacks and the program counters (Go maps, here total functions that give the
zero value at a missing key) and the accessor `Event`. -/
structure Trace where
  Processors : List Processor
  CPUSamples : List (Nat × List Nat)
  Stacks : Nat → List Nat
  PCs : Nat → Frame
  Event : Nat → Event

/-- The type `widget.FlamegraphFrame`, as `flamegraph.go` builds and reads it. -/
structure FlamegraphFrame where
  Name : GoString
  Duration : Int
  deriving DecidableEq, Repr

/-- The type `widget.FlamegraphSample`: the frames of one sample. -/
abbrev FlamegraphSample := List FlamegraphFrame

/-- One call `fg.AddSample(frames, root)`. -/
structure AddSampleCall where
  frames : FlamegraphSample
  root : GoString
  deriving DecidableEq, Repr

/-- The ways in which the modelled code panics. -/
inductive Panic
  | unhandledState (s : SchedulingState)
  | indexOutOfRange
  | sliceOutOfRange
  deriving DecidableEq, Repr

/-! ## `FlameGraphWindow.Run`: the function that builds the flame graph -/

/-- The loop `for _, p := range trace.Processors { for _, s := range p.Spans {
totalDuration += s.Duration() } }`. -/
def totalDuration (t : Trace) : Int :=
  t.Processors.foldl
    (fun acc p => p.Spans.foldl (fun acc s => wrapInt64 (acc + s.Duration)) acc) 0

/-- The loop `for _, samples := range trace.CPUSamples { totalSamples +=
uint64(len(samples)) }`. -/
def totalSamples (t : Trace) : Nat :=
  t.CPUSamples.foldl (fun acc kv => (acc + kv.2.length) % 2 ^ 64) 0

/-- The value `time.Duration(math.Round(float64(totalDuration) / float64(totalSamples)))`.
A division by zero gives a NaN or an infinity, and the conversion of such a value or of a
value outside of `int64` to `int64` is implementation-specific in Go: `indef` stands for
what the platform returns then. -/
def sampleDuration (indef : Int → Nat → Int) (t : Trace) : Int :=
  let a := totalDuration t
  let n := totalSamples t
  if n = 0 then indef a n
  else
    let r := mathRound (f64 (f64 a / f64 n))
    if -2 ^ 63 ≤ r ∧ r < 2 ^ 63 then r else indef a n

/-- The loop `for i := len(stack) - 1; i >= 0; i-- { frames = append(frames,
FlamegraphFrame{Name: trace.PCs[stack[i]].Fn, Duration: d}) }`; the counter of the model is
`i + 1`. -/
def appendFrames (t : Trace) (stack : List Nat) (d : Int) :
    Nat → FlamegraphSample → FlamegraphSample
  | 0, frames => frames
  | i + 1, frames =>
    appendFrames t stack d i (frames ++ [⟨(t.PCs (stack.getD i 0)).Fn, d⟩])

/-- The closure `do`: one `AddSample` call under "Running" for each sample. -/
def doSamples (t : Trace) (d : Int) (samples : List Nat) (fg : List AddSampleCall) :
    List AddSampleCall :=
  samples.foldl
    (fun fg sample =>
      let stack := t.Stacks (t.Event sample).StkID
      fg ++ [⟨appendFrames t stack d stack.length [], lit "Running"⟩])
    fg

/-- The switch over `span.State`: the root category of a span, empty when the span is
dropped, and a panic in the default case. -/
def spanRoot : SchedulingState → Except Panic GoString
  | .StateInactive => .ok []
  | .StateActive => .ok []
  | .StateGCIdle => .ok []
  | .StateGCDedicated => .ok []
  | .StateGCFractional => .ok []
  | .StateBlocked => .ok (lit "blocked")
  | .StateBlockedSend => .ok (lit "send")
  | .StateBlockedRecv => .ok (lit "recv")
  | .StateBlockedSelect => .ok (lit "select")
  | .StateBlockedSync => .ok (lit "sync")
  | .StateBlockedSyncOnce => .ok (lit "sync.Once")
  | .StateBlockedSyncTriggeringGC => .ok (lit "triggering GC")
  | .StateBlockedCond => .ok (lit "sync.Cond")
  | .StateBlockedNet => .ok (lit "I/O")
  | .StateBlockedGC => .ok (lit "GC")
  | .StateBlockedSyscall => .ok (lit "blocking syscall")
  | .StateStuck => .ok []
  | .StateReady => .ok (lit "ready")
  | .StateCreated => .ok (lit "ready")
  | .StateDone => .ok []
  | .StateGCMarkAssist => .ok []
  | .StateGCSweep => .ok []
  | s => .error (.unhandledState s)

/-- The part of the loop body after the switch: `if root != "" { ... fg.AddSample(frames,
root) }`. -/
def addSpanSample (t : Trace) (span : Span) (root : GoString) (fg : List AddSampleCall) :
    List AddSampleCall :=
  if root ≠ [] then
    let frames : FlamegraphSample :=
      if root ≠ lit "ready" then
        let stack := t.Stacks (t.Event span.Event).StkID
        appendFrames t stack span.Duration stack.length []
      else []
    fg ++ [⟨frames, root⟩]
  else fg

/-- One iteration of the loop `for _, span := range g.Spans`: the switch, then the sample. -/
def spanStep (t : Trace) (span : Span) (fg : List AddSampleCall) :
    Except Panic (List AddSampleCall) :=
  match spanRoot span.State with
  | .error e => .error e
  | .ok root => .ok (addSpanSample t span root fg)

/-- The loop `for _, span := range g.Spans`. -/
def spansLoop (t : Trace) : List Span → List AddSampleCall → Except Panic (List AddSampleCall)
  | [], fg => .ok fg
  | span :: rest, fg =>
    match spanStep t span fg with
    | .error e => .error e
    | .ok fg1 => spansLoop t rest fg1

/-- The map read `trace.CPUSamples[id]`: the zero value (no samples) at a missing key. -/
def cpuSamplesOf (t : Trace) (id : Nat) : List Nat :=
  (t.CPUSamples.lookup id).getD []

/-- The function passed to `theme.NewFuture` in `FlameGraphWindow.Run`, up to the call of
`fg.Compute()`: the `AddSample` calls made on the empty flame graph, in order, for the
whole trace (`g = nil`) or for one goroutine. -/
def buildFlameGraph (indef : Int → Nat → Int) (t : Trace) (g : Option Goroutine) :
    Except Panic (List AddSampleCall) :=
  let d := sampleDuration indef t
  match g with
  | none => .ok (t.CPUSamples.foldl (fun fg kv => doSamples t d kv.2 fg) [])
  | some g => spansLoop t g.Spans (doSamples t d (cpuSamplesOf t g.ID) [])

/-! ## The package `strings` and string slicing -/

/-- The function `strings.HasPrefix`. -/
def HasPrefix (s pre : GoString) : Bool := pre.isPrefixOf s

/-- The search of `strings.Index` in the rest of a string that starts at offset `i`. -/
def indexAt (sub : GoString) : GoString → Nat → Int
  | [], i => if sub.isPrefixOf [] then (i : Int) else -1
  | c :: cs, i => if sub.isPrefixOf (c :: cs) then (i : Int) else indexAt sub cs (i + 1)

/-- The function `strings.Index`: the offset of the first instance of `sub` in `s`, or -1. -/
def Index (s sub : GoString) : Int := indexAt sub s 0

/-- The search of `strings.LastIndex` in the rest of a string that starts at offset `i`;
`best` is the last instance found before. -/
def lastIndexAt (sub : GoString) : GoString → Nat → Int → Int
  | [], i, best => if sub.isPrefixOf [] then (i : Int) else best
  | c :: cs, i, best =>
    lastIndexAt sub cs (i + 1) (if sub.isPrefixOf (c :: cs) then (i : Int) else best)

/-- The function `strings.LastIndex`: the offset of the last instance of `sub` in `s`,
or -1. -/
def LastIndex (s sub : GoString) : Int := lastIndexAt sub s 0 (-1)

/-- The function `strings.Contains`. -/
def Contains (s sub : GoString) : Bool := decide (0 ≤ Index s sub)

/-- The slice expression `s[:hi]`, which panics unless `0 ≤ hi ≤ len(s)`. -/
def sliceTo (s : GoString) (hi : Int) : Except Panic GoString :=
  if 0 ≤ hi ∧ hi ≤ (s.length : Int) then .ok (s.take hi.toNat) else .error .sliceOutOfRange

/-- The slice expression `s[lo:]`, which panics unless `0 ≤ lo ≤ len(s)`. -/
def sliceFrom (s : GoString) (lo : Int) : Except Panic GoString :=
  if 0 ≤ lo ∧ lo ≤ (s.length : Int) then .ok (s.drop lo.toNat) else .error .sliceOutOfRange

/-- The 64-bit FNV-1 hash of `hash/fnv` (`fnv.New64`, `Write`, `Sum64`): for each byte,
multiply by the prime modulo `2 ^ 64`, then xor the byte. -/
def fnv64 (key : GoString) : Nat :=
  key.foldl (fun h c => ((h * 1099511628211) % 2 ^ 64) ^^^ c) 14695981039346656037

/-! ## `colors.go` -/

/-- The type `mycolor.Oklch`; its fields are `float32` values. -/
structure Oklch where
  L : ℚ
  C : ℚ
  H : ℚ
  Alpha : ℚ
  deriving DecidableEq, Repr

/-- The constants of type `colorIndex`, in the order of their declaration. -/
inductive colorIndex
  | colorStateUnknown
  | colorStateInactive
  | colorStateActive
  | colorStateBlocked
  | colorStateBlockedHappensBefore
  | colorStateBlockedNet
  | colorStateBlockedGC
  | colorStateBlockedSyscall
  | colorStateGC
  | colorStateSTW
  | colorStateReady
  | colorStateStuck
  | colorStateMerged
  | colorStateUserRegion
  | colorStateStack
  | colorStateCPUSample
  | colorStateDone
  | colorStatePlaceholderStackSpan
  | colorStateLast
  | colorTimelineLabel
  | colorTimelineBorder
  | colorSpanHighlightedPrimaryOutline
  | colorSpanHighlightedSecondaryOutline
  deriving DecidableEq, Repr

/-- The function `oklch`; its arguments are `float32` values. -/
def oklch (l c h : ℚ) : Oklch := ⟨f32 (l / 100), c, h, 1⟩

/-- The function `oklchDelta`; its arguments are `float32` values. -/
def oklchDelta (b : Oklch) (l c h : ℚ) : Oklch :=
  let bL := f32 (b.L + f32 (l / 100))
  let bC := f32 (b.C + c)
  let bH := f32 (b.H + h)
  let bL := if bL < 0 then 0 else bL
  let bL := if bL > 1 then 1 else bL
  let bC := if bC < 0 then 0 else bC
  ⟨bL, bC, bH, b.Alpha⟩

/-- The array `colorsOklch` after `init`: the entries that `init` assigns, and the zero
value elsewhere. The constants of `init` are `l = 58.51`, `c = 0.122`, `lStep1 = 15` and
`lStep2 = 10`; constant expressions are evaluated exactly and then converted to
`float32`. -/
def colorsOklch : colorIndex → Oklch
  | .colorStateActive => oklch (f32 58.51) (f32 0.122) (f32 143.74)
  | .colorStateStack =>
    oklchDelta (oklch (f32 58.51) (f32 0.122) (f32 143.74)) (f32 15) (f32 (-0.01)) (f32 0)
  | .colorStateCPUSample =>
    oklchDelta
      (oklchDelta (oklch (f32 58.51) (f32 0.122) (f32 143.74)) (f32 15) (f32 (-0.01)) (f32 0))
      (f32 10) (f32 (-0.01)) (f32 0)
  | .colorStateReady => oklch (f32 58.51) (f32 0.122) (f32 206.35)
  | .colorStateInactive => oklch (f32 58.51) (f32 0) (f32 0)
  | .colorStateUserRegion => oklch (f32 83.51) (f32 0.122) (f32 331.18)
  | .colorStateBlocked => oklch (f32 53.51) (f32 0.122) (f32 23.89)
  | .colorStateBlockedSyscall => oklch (f32 58.51) (f32 0.122) (f32 23.89)
  | .colorStateBlockedNet => oklch (f32 64.51) (f32 0.112) (f32 23.89)
  | .colorStateBlockedHappensBefore => oklch (f32 68.51) (f32 0.122) (f32 23.89)
  | .colorStateBlockedGC => oklch (f32 58.51) (f32 0.122) (f32 0)
  | .colorStateGC => oklch (f32 58.51) (f32 0.122) (f32 302.36)
  | .colorStateSTW => oklch (f32 58.51) (f32 0.194) (f32 23.89)
  | .colorTimelineLabel => oklch (f32 62.68) (f32 0) (f32 0)
  | .colorTimelineBorder => oklch (f32 89.75) (f32 0) (f32 0)
  | .colorSpanHighlightedPrimaryOutline => oklch (f32 70.71) (f32 0.322) (f32 328.36)
  | .colorSpanHighlightedSecondaryOutline => oklch (f32 88.44) (f32 0.27) (f32 137.68)
  | .colorStateMerged => oklch (f32 73.51) (f32 0.122) (f32 109.91)
  | .colorStateStuck => oklch (f32 0) (f32 0) (f32 0)
  | .colorStateDone => oklch (f32 0) (f32 0) (f32 0)
  | .colorStateUnknown => ⟨0, 0, 0, 0⟩
  | .colorStatePlaceholderStackSpan => ⟨0, 0, 0, 0⟩
  | .colorStateLast => ⟨0, 0, 0, 0⟩

/-! ## `flameGraphColorFn` -/

/-- The array `offsets`. -/
def offsets : List ℚ := [4, 9, 3, 8, 2, 7, 1, 6, 0, 5]

/-- The closure `adjustLight` for the sibling index `idx`. The remainder `idx % 10` of Go
truncates towards zero; indexing `offsets` with a negative value panics. Every `float32`
operation is rounded on its own. -/
def adjustLight (idx : Int) (mc : Oklch) : Except Panic Oklch :=
  let oldMax : ℚ := f32 (offsets.length : ℚ)
  let newMin : ℚ := f32 (-0.05)
  let newMax : ℚ := f32 0.12
  let i : Int := Int.tmod idx (offsets.length : Int)
  if i < 0 then .error .indexOutOfRange
  else
    match offsets[i.toNat]? with
    | none => .error .indexOutOfRange
    | some v =>
      let delta := f32 (f32 (f32 (v / oldMax) * f32 (newMax - newMin)) + newMin)
      let l := f32 (mc.L + delta)
      let l := if l < 0 then 0 else l
      let l := if l > 1 then 1 else l
      .ok { mc with L := l }

/-- The switch over `f.Name` at level 0: the entry of `colorsOklch` for a root category. -/
def rootColor (name : GoString) : Option colorIndex :=
  if name = lit "Running" then some .colorStateActive
  else if name = lit "blocked" then some .colorStateBlocked
  else if name = lit "send" ∨ name = lit "recv" ∨ name = lit "select" ∨ name = lit "sync" ∨
      name = lit "sync.Once" ∨ name = lit "sync.Cond" then
    some .colorStateBlockedHappensBefore
  else if name = lit "GC" ∨ name = lit "triggering GC" then some .colorStateBlockedGC
  else if name = lit "I/O" then some .colorStateBlockedNet
  else if name = lit "blocking syscall" then some .colorStateBlockedSyscall
  else if name = lit "ready" then some .colorStateReady
  else none

/-- The colour `cRuntime`. -/
def cRuntime : Oklch := ⟨f32 0.5639, f32 0.272, f32 318.89, f32 1.0⟩

/-- The colour `cStdlib`. -/
def cStdlib : Oklch := ⟨f32 0.8179, f32 0.1705233575429752, f32 77.9481021312874, f32 1.0⟩

/-- The colour `cMain`. -/
def cMain : Oklch := ⟨f32 0.5167, f32 0.13481202013716384, f32 152.37558843925763, f32 1.0⟩

/-- The value of `pkg` in the last branch of `flameGraphColorFn`. -/
def pkgOf (name : GoString) : Except Panic GoString :=
  if HasPrefix name (lit "main.") then .ok (lit "main")
  else do
    let last := LastIndex name (lit "/")
    let tail ← sliceFrom name last
    let dot := Index tail (lit ".")
    sliceTo name (last + dot)

/-- The colour chosen by hashing the import path `pkg`. -/
def hashColor (pkg : GoString) : Oklch :=
  let baseLightness : ℚ := f32 0.699
  let baseChroma : ℚ := f32 0.103
  let hueStep : ℚ := f32 20
  let sum : Nat := fnv64 pkg
  let buckets : Nat := (⌊f32 (f32 360.0 / hueStep)⌋).toNat % 2 ^ 64
  let hue : ℚ := f32 (hueStep * f32 ((sum % buckets : Nat) : ℚ))
  ⟨baseLightness, baseChroma, hue, f32 1.0⟩

/-- The part of `flameGraphColorFn` after the switch over the root categories: the colour
of a name by its provenance, before the adjustment of the lightness. -/
def provenanceColor (name : GoString) : Except Panic Oklch :=
  if HasPrefix name (lit "runtime.") || HasPrefix name (lit "runtime/") ||
      !Contains name (lit ".") then
    .ok cRuntime
  else
    let slashIdx := Index name (lit "/")
    if HasPrefix name (lit "main.") then .ok cMain
    else if slashIdx = -1 then .ok cStdlib
    else do
      let head ← sliceTo name slashIdx
      if !Contains head (lit ".") then .ok cStdlib
      else do
        let pkg ← pkgOf name
        .ok (hashColor pkg)

/-- The function `flameGraphColorFn`. -/
def flameGraphColorFn (level idx : Int) (f : FlamegraphFrame) (hovered : Bool) :
    Except Panic Oklch :=
  if hovered then .ok ⟨f32 0.94, f32 0.222, f32 119, f32 1⟩
  else
    match (if level = 0 then rootColor f.Name else none) with
    | some ci => adjustLight idx (colorsOklch ci)
    | none => do
      let c ← provenanceColor f.Name
      adjustLight idx c

/-! ## The vocabulary of the claims, and closed forms used in the proofs -/

/-- The frame that the loops build for the program counter `pc`. -/
def frameOf (t : Trace) (d : Int) (pc : Nat) : FlamegraphFrame := ⟨(t.PCs pc).Fn, d⟩

/-- The call that `do` makes for one sample. -/
def runningCall (t : Trace) (d : Int) (sample : Nat) : AddSampleCall :=
  ⟨(t.Stacks (t.Event sample).StkID).reverse.map (frameOf t d), lit "Running"⟩

/-- What is said of the sample added for one recorded stack -/
def IsStackSample (t : Trace) (d : Int) (root : GoString) (stack : List Nat)
    (c : AddSampleCall) : Prop :=
  c.root = root ∧ c.frames.length = stack.length ∧
    ∀ k pc, k < stack.length → stack[stack.length - 1 - k]? = some pc →
      c.frames[k]? = some ⟨(t.PCs pc).Fn, d⟩

/-- The span adds exactly one sample, under the root category `cat`. -/
def AddsOneUnder (t : Trace) (span : Span) (cat : GoString) : Prop :=
  ∀ fg, ∃ frames, spanStep t span fg = .ok (fg ++ [⟨frames, cat⟩])

/-- The span adds no sample. -/
def AddsNone (t : Trace) (span : Span) : Prop :=
  ∀ fg, spanStep t span fg = .ok fg

/-- The states that the switch over `span.State` names in a case. -/
def namedInSwitch : SchedulingState → Bool
  | .StateInactive | .StateActive | .StateGCIdle | .StateGCDedicated | .StateGCFractional
  | .StateBlocked | .StateBlockedSend | .StateBlockedRecv | .StateBlockedSelect
  | .StateBlockedSync | .StateBlockedSyncOnce | .StateBlockedSyncTriggeringGC
  | .StateBlockedCond | .StateBlockedNet | .StateBlockedGC | .StateBlockedSyscall
  | .StateStuck | .StateReady | .StateCreated | .StateDone | .StateGCMarkAssist
  | .StateGCSweep => true
  | _ => false

/-- The exact sum of the durations of all spans of all processors. -/
def durationSum (t : Trace) : Int :=
  (t.Processors.map (fun p => (p.Spans.map (fun s => s.Duration)).sum)).sum

/-- The exact number of CPU samples of all goroutines. -/
def sampleCount (t : Trace) : Nat :=
  (t.CPUSamples.map (fun kv => kv.2.length)).sum

/-- The blocked states (the GC-related ones, `StateBlockedGC` and
`StateBlockedSyncTriggeringGC`, among them). -/
def isBlockedState : SchedulingState → Bool
  | .StateBlocked | .StateBlockedSend | .StateBlockedRecv | .StateBlockedSelect
  | .StateBlockedSync | .StateBlockedSyncOnce | .StateBlockedSyncTriggeringGC
  | .StateBlockedCond | .StateBlockedNet | .StateBlockedGC | .StateBlockedSyscall => true
  | _ => false

/-- The states of a goroutine that waits to run. -/
def isReadyState : SchedulingState → Bool
  | .StateReady | .StateCreated => true
  | _ => false

/-- The states called interesting: blocked variants, GC-related blocking, ready, stuck. -/
def isInterestingState (s : SchedulingState) : Bool :=
  isBlockedState s || isReadyState s || s == .StateStuck

/-- A trace without processors, samples and stacks. -/
def emptyTrace : Trace := ⟨[], [], fun _ => [], fun _ => ⟨[]⟩, fun _ => ⟨0⟩⟩

/-- A trace with one span of `2 ^ 53 + 1` nanoseconds on its processor and one CPU sample. -/
def longTrace : Trace :=
  ⟨[⟨[⟨.StateRunningG, 0, 2 ^ 53 + 1⟩]⟩], [(1, [0])], fun _ => [7], fun _ => ⟨lit "main.f"⟩,
    fun _ => ⟨0⟩⟩

/-- A trace with two processor spans, two goroutines and three CPU samples. -/
def smallTrace : Trace :=
  ⟨[⟨[⟨.StateRunningG, 0, 1000⟩, ⟨.StateRunningG, 0, 501⟩]⟩], [(1, [10, 11]), (2, [12])],
    fun k => if k = 0 then [1, 2, 3] else [7], fun pc => ⟨[pc + 100]⟩, fun e => ⟨e - 10⟩⟩

/-- A name of the runtime: no '.' in it, or the prefix "runtime." or "runtime/". -/
def isRuntimeName (name : GoString) : Prop :=
  46 ∉ name ∨ lit "runtime." <+: name ∨ lit "runtime/" <+: name

/-- A name of the entry-point package: the prefix "main.". -/
def isMainName (name : GoString) : Prop := lit "main." <+: name

/-- A name of the standard library: no '/' in it, or no '.' before its first '/'. -/
def isStdlibName (name : GoString) : Prop :=
  47 ∉ name ∨ 46 ∉ name.takeWhile (fun b => b ≠ 47)

/-- The part of a name after its last '/' (the whole name when it has no '/'). -/
def lastSegment (name : GoString) : GoString :=
  (name.reverse.takeWhile (fun b => b ≠ 47)).reverse

/-- The name `name` belongs to the package with import path `path`: `path` is the prefix of
the name before its final symbol segment, which is to say that the name continues with a
'.', that no '/' follows this '.', and that no '.' lies between the last '/' of `path` and
its end (the '.' is the first one after the last '/' of the name). -/
def isImportPathOf (path name : GoString) : Prop :=
  (path ++ [46]) <+: name ∧ 47 ∉ name.drop (path.length + 1) ∧ 46 ∉ lastSegment path

/-- The root category labels that the switch of `flameGraphColorFn` names. -/
def rootLabels : List GoString :=
  [lit "Running", lit "blocked", lit "send", lit "recv", lit "select", lit "sync",
    lit "sync.Once", lit "sync.Cond", lit "GC", lit "triggering GC", lit "I/O",
    lit "blocking syscall", lit "ready"]

/-- At level 0 the frame named `name` is coloured from the entry `ci` of `colorsOklch`:
the colour is the entry with its lightness adjusted, so hue, chroma and alpha are the
entry's. -/
def ColouredFromTable (idx : Int) (name : GoString) (ci : colorIndex) : Prop :=
  ∀ d : Int, ∃ c, flameGraphColorFn 0 idx ⟨name, d⟩ false = .ok c ∧
    adjustLight idx (colorsOklch ci) = .ok c ∧
    c.H = (colorsOklch ci).H ∧ c.C = (colorsOklch ci).C ∧ c.Alpha = (colorsOklch ci).Alpha

/-- The lightness adjustment that `adjustLight` computes from the entry `v` of `offsets`:
`(v/oldMax)*(newMax-newMin) + newMin` in `float32`. -/
def lightDelta (v : ℚ) : ℚ :=
  f32 (f32 (f32 (v / f32 10) * f32 (f32 0.12 - f32 (-0.05))) + f32 (-0.05))

/-- The entry of `offsets` that `adjustLight` reads for the sibling index `idx`. -/
def siblingOffset (idx : Int) : ℚ := offsets.getD (Int.tmod idx 10).toNat 0

/-- The lightness adjustment of the sibling index `idx`. -/
def siblingDelta (idx : Int) : ℚ := lightDelta (siblingOffset idx)

/-- Clamping of a lightness to the range from 0 to 1, as `adjustLight` does it. -/
def clampLight (l : ℚ) : ℚ :=
  let l := if l < 0 then 0 else l
  if l > 1 then 1 else l

/-- The colour before the adjustment of the lightness: the entry of `colorsOklch` for a
root category label at level 0, and the provenance colour of the name otherwise. -/
def baseColour (level : Int) (name : GoString) : Except Panic Oklch :=
  match (if level = 0 then rootColor name else none) with
  | some ci => .ok (colorsOklch ci)
  | none => provenanceColor name

/-- One method call on the flame graph `fg` of `FlameGraphWindow.Run`. -/
inductive FlameGraphOp
  | AddSample (c : AddSampleCall)
  | Compute
  deriving DecidableEq, Repr

/-- The function passed to `theme.NewFuture` in `FlameGraphWindow.Run`, whole: the
`AddSample` calls of `buildFlameGraph`, then `fg.Compute()`, and the graph is returned.
The package `widget` is not among the sources: the result is the sequence of the method
calls made on the graph that is returned. -/
def flameGraphFuture (indef : Int → Nat → Int) (t : Trace) (g : Option Goroutine) :
    Except Panic (List FlameGraphOp) :=
  match buildFlameGraph indef t g with
  | .error e => .error e
  | .ok calls => .ok (calls.map .AddSample ++ [.Compute])

/-- A trace with processor time and without CPU samples (the goroutine 1 has an empty list
of samples). -/
def idleTrace : Trace :=
  ⟨[⟨[⟨.StateRunningG, 0, 1000⟩]⟩], [(1, [])], fun _ => [3, 4], fun pc => ⟨[pc]⟩,
    fun _ => ⟨0⟩⟩

/-- Modelled from the spec: the type `ptrace.Point` is not among the sources. `plot.go`
reads the time `When` of a point (a `trace.Timestamp`, 64 bits, signed) and its value
`Value` (a `uint64`). -/
structure Point where
  When : Int
  Value : Nat
  deriving DecidableEq, Repr

/-- The type `PlotSeries`, with the fields that `computeExtents` reads. -/
structure PlotSeries where
  Points : List Point
  disabled : Bool
  deriving DecidableEq, Repr

/-- The loop of `sort.Search`: `for i < j { h := int(uint(i+j) >> 1); if !f(h) { i = h + 1 }
else { j = h } }`; the first argument bounds the number of iterations. -/
def searchLoop (f : Nat → Bool) : Nat → Nat → Nat → Nat
  | 0, i, _ => i
  | fuel + 1, i, j =>
    if i < j then
      let h := (i + j) / 2
      if !f h then searchLoop f fuel (h + 1) j else searchLoop f fuel i h
    else i

/-- The function `sort.Search(n, f)`; the loop ends within `n` iterations. -/
def sortSearch (n : Nat) (f : Nat → Bool) : Nat := searchLoop f n 0 n

/-- The loop `for _, p := range s.Points[idx:]` of `computeExtents` over the points that
remain, with the current `min` and `max`. -/
def scanPoints (end_ : Int) : List Point → Nat × Nat → Nat × Nat
  | [], mm => mm
  | p :: ps, mm =>
    if p.When ≥ end_ then mm
    else
      let mn := if p.Value < mm.1 then p.Value else mm.1
      let mx := if p.Value > mm.2 then p.Value else mm.2
      scanPoints end_ ps (mn, mx)

/-- The index of the first point that `computeExtents` considers in a series: the result of
`sort.Search`, decremented by one and not below 0. -/
def firstIndex (s : PlotSeries) (start : Int) : Nat :=
  let idx : Int :=
    sortSearch s.Points.length (fun i => decide ((s.Points.getD i ⟨0, 0⟩).When ≥ start))
  let idx := idx - 1
  let idx := if idx < 0 then 0 else idx
  idx.toNat

/-- The body of the loop `for _, s := range pl.series` of `computeExtents`. -/
def seriesExtents (start end_ : Int) (mm : Nat × Nat) (s : PlotSeries) : Nat × Nat :=
  if s.disabled then mm
  else scanPoints end_ (s.Points.drop (firstIndex s start)) mm

/-- The end of `computeExtents`, after the loop: the widening of the pair `min`, `max`, in
unsigned 64-bit arithmetic. -/
def widenExtents (mm : Nat × Nat) : Nat × Nat :=
  let mm : Nat × Nat :=
    if mm.1 = mm.2 then ((mm.1 + (2 ^ 64 - 1)) % 2 ^ 64, (mm.2 + 1) % 2 ^ 64) else mm
  let d := (mm.2 + (2 ^ 64 - mm.1)) % 2 ^ 64
  let n := (mm.1 + (2 ^ 64 - d / 10)) % 2 ^ 64
  let mn := if n ≤ mm.1 then n else 0
  let mx := (mm.2 + d / 10) % 2 ^ 64
  (mn, mx)

/-- The method `Plot.computeExtents` on the series `pl.series`. -/
def computeExtents (series : List PlotSeries) (start end_ : Int) : Nat × Nat :=
  widenExtents (series.foldl (seriesExtents start end_) (2 ^ 64 - 1, 0))

/-- The points of a series that `computeExtents` considers. -/
def consideredPoints (start end_ : Int) (s : PlotSeries) : List Point :=
  if s.disabled then []
  else (s.Points.drop (firstIndex s start)).takeWhile (fun p => decide (p.When < end_))

/-- The pair `min`, `max` of `computeExtents` after its loop over the series. -/
def loopExtents (series : List PlotSeries) (start end_ : Int) : Nat × Nat :=
  series.foldl (seriesExtents start end_) (2 ^ 64 - 1, 0)

/-! ## Theorems -/

open SchedulingState

theorem appendFrames_eq (t : Trace) (stack : List Nat) (d : Int) :
    ∀ (n : Nat) (frames : FlamegraphSample), n ≤ stack.length →
      appendFrames t stack d n frames = frames ++ ((stack.take n).reverse.map (frameOf t d)) := by
  intro n
  induction n with
  | zero => intro frames _; simp [appendFrames]
  | succ i ih =>
    intro frames h
    have hi : i < stack.length := h
    have hget : stack.getD i 0 = stack[i] := by
      simp [List.getD_eq_getElem?_getD, List.getElem?_eq_getElem hi]
    have htake : stack.take (i + 1) = stack.take i ++ [stack[i]] := by
      rw [List.take_succ, List.getElem?_eq_getElem hi]; rfl
    rw [appendFrames, ih _ (Nat.le_of_lt hi), htake, hget]
    simp only [List.reverse_append, List.reverse_singleton, List.map_append, List.map_cons,
      List.map_nil, List.append_assoc, frameOf]

theorem appendFrames_full (t : Trace) (stack : List Nat) (d : Int) :
    appendFrames t stack d stack.length [] = stack.reverse.map (frameOf t d) := by
  rw [appendFrames_eq t stack d stack.length [] (Nat.le_refl _)]
  simp

theorem doSamples_eq (t : Trace) (d : Int) (samples : List Nat) :
    ∀ fg, doSamples t d samples fg = fg ++ samples.map (runningCall t d) := by
  induction samples with
  | nil => intro fg; simp [doSamples]
  | cons s rest ih =>
    intro fg
    have := ih (fg ++ [runningCall t d s])
    simp only [doSamples, List.foldl_cons] at this ⊢
    rw [appendFrames_full]
    simpa [runningCall] using this

theorem rangeSamples_eq (t : Trace) (d : Int) (l : List (Nat × List Nat)) :
    ∀ fg, l.foldl (fun fg kv => doSamples t d kv.2 fg) fg
      = fg ++ (l.flatMap (fun kv => kv.2)).map (runningCall t d) := by
  induction l with
  | nil => intro fg; simp
  | cons kv rest ih =>
    intro fg
    rw [List.foldl_cons, ih, doSamples_eq]
    simp [List.flatMap_cons]

theorem isStackSample_reverse (t : Trace) (d : Int) (root : GoString) (stack : List Nat) :
    IsStackSample t d root stack ⟨stack.reverse.map (frameOf t d), root⟩ := by
  refine ⟨rfl, by simp, ?_⟩
  intro k pc hk hpc
  simp only [List.getElem?_map, List.getElem?_reverse hk, hpc, Option.map_some', frameOf]

theorem spanRoot_ne_running (s : SchedulingState) (root : GoString)
    (h : spanRoot s = .ok root) : root ≠ lit "Running" := by
  cases s <;> simp only [spanRoot] at h <;> first
    | (cases h; decide!)
    | (exact absurd h (by simp))

theorem spanStep_shape (t : Trace) (span : Span) (fg fg1 : List AddSampleCall)
    (h : spanStep t span fg = .ok fg1) :
    ∃ rest, fg1 = fg ++ rest ∧ ∀ c ∈ rest, c.root ≠ lit "Running" := by
  unfold spanStep at h
  cases hr : spanRoot span.State with
  | error e => rw [hr] at h; cases h
  | ok root =>
    rw [hr] at h
    simp only [Except.ok.injEq] at h
    subst h
    unfold addSpanSample
    by_cases h0 : root = []
    · exact ⟨[], by simp [h0], by simp⟩
    · refine ⟨[_], by simp only [h0, ne_eq, not_false_eq_true, if_true]; rfl, ?_⟩
      intro c hc
      simp only [List.mem_singleton] at hc
      subst hc
      exact spanRoot_ne_running _ _ hr

theorem spansLoop_shape (t : Trace) (spans : List Span) :
    ∀ (fg calls : List AddSampleCall), spansLoop t spans fg = .ok calls →
      ∃ rest, calls = fg ++ rest ∧ ∀ c ∈ rest, c.root ≠ lit "Running" := by
  induction spans with
  | nil =>
    intro fg calls h
    simp only [spansLoop, Except.ok.injEq] at h
    exact ⟨[], by simp [h], by simp⟩
  | cons span rest ih =>
    intro fg calls h
    rw [spansLoop] at h
    cases hs : spanStep t span fg with
    | error e => rw [hs] at h; cases h
    | ok fg1 =>
      rw [hs] at h
      obtain ⟨r1, h1, hr1⟩ := spanStep_shape t span fg fg1 hs
      obtain ⟨r2, h2, hr2⟩ := ih fg1 calls h
      refine ⟨r1 ++ r2, by rw [h2, h1, List.append_assoc], ?_⟩
      intro c hc
      rcases List.mem_append.mp hc with hc | hc
      · exact hr1 c hc
      · exact hr2 c hc

theorem forall₂_map_right_of (P : α → β → Prop) (f : α → β) (h : ∀ a, P a (f a)) :
    ∀ l : List α, List.Forall₂ P l (l.map f) := by
  intro l
  induction l with
  | nil => exact List.Forall₂.nil
  | cons a l ih => exact List.Forall₂.cons (h a) ih

/-- Claim C1. CPU-sample extraction. In the whole-trace view the `AddSample` calls are, one
for one and in order, the samples of all goroutines; in the view of a goroutine the calls
start with one call for each sample of that goroutine, and no later call has the root
"Running". The call made for a sample has the root "Running" and as many frames as the
raw stack has entries, frame `k` is named by the function of stack entry `len - 1 - k`, and
every frame carries the duration `sampleDuration`, the shared sample interval. -/
theorem cpu_sample_extraction (indef : Int → Nat → Int) (t : Trace) :
    (∃ calls, buildFlameGraph indef t none = .ok calls ∧
      List.Forall₂
        (fun sample c =>
          IsStackSample t (sampleDuration indef t) (lit "Running")
            (t.Stacks (t.Event sample).StkID) c)
        (t.CPUSamples.flatMap (fun kv => kv.2)) calls) ∧
    (∀ (g : Goroutine) (calls : List AddSampleCall),
      buildFlameGraph indef t (some g) = .ok calls →
      ∃ cpu rest, calls = cpu ++ rest ∧
        List.Forall₂
          (fun sample c =>
            IsStackSample t (sampleDuration indef t) (lit "Running")
              (t.Stacks (t.Event sample).StkID) c)
          (cpuSamplesOf t g.ID) cpu ∧
        ∀ c ∈ rest, c.root ≠ lit "Running") := by
  have key : ∀ l : List Nat, List.Forall₂
      (fun sample c =>
        IsStackSample t (sampleDuration indef t) (lit "Running")
          (t.Stacks (t.Event sample).StkID) c)
      l (l.map (runningCall t (sampleDuration indef t))) :=
    forall₂_map_right_of _ _ (fun s => isStackSample_reverse t _ _ _)
  constructor
  · refine ⟨_, rfl, ?_⟩
    rw [rangeSamples_eq, List.nil_append]
    exact key _
  · intro g calls h
    simp only [buildFlameGraph, doSamples_eq, List.nil_append] at h
    obtain ⟨rest, hrest, hne⟩ := spansLoop_shape t g.Spans _ calls h
    exact ⟨_, rest, hrest, key _, hne⟩

theorem addsOne_of_root (t : Trace) (span : Span) (cat : GoString)
    (h : spanRoot span.State = .ok cat) (hne : cat ≠ []) : AddsOneUnder t span cat := by
  intro fg
  simp only [spanStep, h, addSpanSample, hne, ne_eq, not_false_eq_true, if_true]
  exact ⟨_, rfl⟩

theorem addsNone_of_root (t : Trace) (span : Span)
    (h : spanRoot span.State = .ok []) : AddsNone t span := by
  intro fg
  simp [spanStep, h, addSpanSample]

/-- One iteration of the loop over the spans: a span in one of the states below appends one
call under the category shown, whatever the calls made before, and a span whose state is
Active, Inactive or GCIdle appends none. -/
theorem spanStep_category (t : Trace) (span : Span) :
    (span.State = StateBlocked → AddsOneUnder t span (lit "blocked")) ∧
    (span.State = StateBlockedSend → AddsOneUnder t span (lit "send")) ∧
    (span.State = StateBlockedRecv → AddsOneUnder t span (lit "recv")) ∧
    (span.State = StateBlockedSelect → AddsOneUnder t span (lit "select")) ∧
    (span.State = StateBlockedSync → AddsOneUnder t span (lit "sync")) ∧
    (span.State = StateBlockedSyncOnce → AddsOneUnder t span (lit "sync.Once")) ∧
    (span.State = StateBlockedSyncTriggeringGC → AddsOneUnder t span (lit "triggering GC")) ∧
    (span.State = StateBlockedCond → AddsOneUnder t span (lit "sync.Cond")) ∧
    (span.State = StateBlockedNet → AddsOneUnder t span (lit "I/O")) ∧
    (span.State = StateBlockedGC → AddsOneUnder t span (lit "GC")) ∧
    (span.State = StateBlockedSyscall → AddsOneUnder t span (lit "blocking syscall")) ∧
    (span.State = StateReady ∨ span.State = StateCreated → AddsOneUnder t span (lit "ready")) ∧
    (span.State = StateActive ∨ span.State = StateInactive ∨ span.State = StateGCIdle →
      AddsNone t span) := by
  refine ⟨?_, ?_, ?_, ?_, ?_, ?_, ?_, ?_, ?_, ?_, ?_, ?_, ?_⟩
  · intro h; exact addsOne_of_root t span _ (by rw [h]; rfl) (by decide!)
  · intro h; exact addsOne_of_root t span _ (by rw [h]; rfl) (by decide!)
  · intro h; exact addsOne_of_root t span _ (by rw [h]; rfl) (by decide!)
  · intro h; exact addsOne_of_root t span _ (by rw [h]; rfl) (by decide!)
  · intro h; exact addsOne_of_root t span _ (by rw [h]; rfl) (by decide!)
  · intro h; exact addsOne_of_root t span _ (by rw [h]; rfl) (by decide!)
  · intro h; exact addsOne_of_root t span _ (by rw [h]; rfl) (by decide!)
  · intro h; exact addsOne_of_root t span _ (by rw [h]; rfl) (by decide!)
  · intro h; exact addsOne_of_root t span _ (by rw [h]; rfl) (by decide!)
  · intro h; exact addsOne_of_root t span _ (by rw [h]; rfl) (by decide!)
  · intro h; exact addsOne_of_root t span _ (by rw [h]; rfl) (by decide!)
  · intro h
    rcases h with h | h <;>
      exact addsOne_of_root t span _ (by rw [h]; rfl) (by decide!)
  · intro h
    rcases h with h | h | h <;> exact addsNone_of_root t span (by rw [h]; rfl)

/-- Claim C3. Frames of a span sample: a span that yields a sample (its root category is
not empty) adds one sample whose frame list is empty when the category is "ready" and
otherwise is the call stack of the span's event reversed, one frame for each stack entry,
every frame with the duration of the span. -/
theorem span_sample_frames (t : Trace) (span : Span) (root : GoString)
    (fg : List AddSampleCall) (hroot : spanRoot span.State = .ok root) (hne : root ≠ []) :
    ∃ frames, spanStep t span fg = .ok (fg ++ [⟨frames, root⟩]) ∧
      (root = lit "ready" → frames = []) ∧
      (root ≠ lit "ready" →
        IsStackSample t span.Duration root (t.Stacks (t.Event span.Event).StkID)
          ⟨frames, root⟩) := by
  by_cases hr : root = lit "ready"
  · refine ⟨[], ?_, fun _ => rfl, fun h => absurd hr h⟩
    subst hr
    simp only [spanStep, hroot, addSpanSample, hne, ne_eq, not_false_eq_true, if_true,
      not_true_eq_false, if_false]
  · refine ⟨(t.Stacks (t.Event span.Event).StkID).reverse.map (frameOf t span.Duration),
      ?_, fun h => absurd h hr, fun _ => isStackSample_reverse t _ _ _⟩
    simp [spanStep, hroot, addSpanSample, hne, hr, appendFrames_full]

/-- Claim C3, witness: a span blocked on the network, with the stack `[3, 4]` and the
duration 7, adds the sample with the frames of 4 and of 3, each of duration 7. -/
theorem span_sample_frames_witness :
    (spanRoot (⟨StateBlockedNet, 0, 7⟩ : Span).State = .ok (lit "I/O") ∧ lit "I/O" ≠ []) ∧
    (∃ frames, spanStep ⟨[], [], fun _ => [3, 4], fun pc => ⟨[pc]⟩, fun _ => ⟨0⟩⟩
        ⟨StateBlockedNet, 0, 7⟩ [] = .ok ([] ++ [⟨frames, lit "I/O"⟩]) ∧
      (lit "I/O" = lit "ready" → frames = []) ∧
      (lit "I/O" ≠ lit "ready" →
        IsStackSample ⟨[], [], fun _ => [3, 4], fun pc => ⟨[pc]⟩, fun _ => ⟨0⟩⟩ 7 (lit "I/O")
          [3, 4] ⟨frames, lit "I/O"⟩)) ∧
    (spanStep ⟨[], [], fun _ => [3, 4], fun pc => ⟨[pc]⟩, fun _ => ⟨0⟩⟩
        ⟨StateBlockedNet, 0, 7⟩ []).toOption = some [⟨[⟨[4], 7⟩, ⟨[3], 7⟩], lit "I/O"⟩] :=
  ⟨⟨rfl, by decide!⟩,
    span_sample_frames ⟨[], [], fun _ => [3, 4], fun pc => ⟨[pc]⟩, fun _ => ⟨0⟩⟩
      ⟨StateBlockedNet, 0, 7⟩ (lit "I/O") [] rfl (by decide!),
    by decide!⟩

theorem spanRoot_named (s : SchedulingState) (h : namedInSwitch s = true) :
    ∃ root, spanRoot s = .ok root := by
  cases s <;> first | exact ⟨_, rfl⟩ | exact absurd h (by simp [namedInSwitch])

theorem spanRoot_unnamed (s : SchedulingState) (h : namedInSwitch s = false) :
    spanRoot s = .error (.unhandledState s) := by
  cases s <;> first | rfl | exact absurd h (by simp [namedInSwitch])

theorem spanStep_fails_iff (t : Trace) (span : Span) (fg : List AddSampleCall) :
    (∃ e, spanStep t span fg = .error e) ↔ namedInSwitch span.State = false := by
  cases hn : namedInSwitch span.State with
  | true =>
    obtain ⟨root, hr⟩ := spanRoot_named _ hn
    simp [spanStep, hr]
  | false =>
    simp [spanStep, spanRoot_unnamed _ hn]

theorem spansLoop_fails_iff (t : Trace) (spans : List Span) :
    ∀ fg, (∃ e, spansLoop t spans fg = .error e) ↔
      ∃ span ∈ spans, namedInSwitch span.State = false := by
  induction spans with
  | nil => intro fg; simp [spansLoop]
  | cons span rest ih =>
    intro fg
    rw [spansLoop]
    cases hs : spanStep t span fg with
    | error e =>
      have := (spanStep_fails_iff t span fg).mp ⟨e, hs⟩
      simp [this]
    | ok fg1 =>
      have hnot : ¬ namedInSwitch span.State = false := by
        intro hc
        obtain ⟨e, he⟩ := (spanStep_fails_iff t span fg).mpr hc
        rw [hs] at he; cases he
      simp only [ih fg1, List.mem_cons, exists_eq_or_imp, hnot, false_or]
      simp

/-- Claim C4. Unknown states are fatal: a span whose state the switch does not name makes
the loop body panic with "unhandled state", a span whose state the switch names does not
panic, and the extraction for a goroutine fails exactly when one of its spans has a state
that the switch does not name. -/
theorem unknown_state_is_fatal (indef : Int → Nat → Int) (t : Trace) (g : Goroutine) :
    (∀ (span : Span) (fg : List AddSampleCall), namedInSwitch span.State = false →
      spanStep t span fg = .error (.unhandledState span.State)) ∧
    (∀ (span : Span) (fg : List AddSampleCall), namedInSwitch span.State = true →
      ∃ fg1, spanStep t span fg = .ok fg1) ∧
    ((∃ e, buildFlameGraph indef t (some g) = .error e) ↔
      ∃ span ∈ g.Spans, namedInSwitch span.State = false) := by
  refine ⟨?_, ?_, ?_⟩
  · intro span fg h
    simp [spanStep, spanRoot_unnamed _ h]
  · intro span fg h
    obtain ⟨root, hr⟩ := spanRoot_named _ h
    exact ⟨addSpanSample t span root fg, by simp [spanStep, hr]⟩
  · exact spansLoop_fails_iff t g.Spans _

theorem log2Fuel_spec : ∀ (fuel n : Nat), n ≤ fuel → 0 < n →
    2 ^ log2Fuel fuel n ≤ n ∧ n < 2 ^ (log2Fuel fuel n + 1) := by
  intro fuel
  induction fuel with
  | zero => intro n h h0; omega
  | succ fuel ih =>
    intro n h h0
    unfold log2Fuel
    by_cases h2 : n < 2
    · have : n = 1 := by omega
      subst this
      simp
    · simp only [h2, if_false]
      have hd : n / 2 ≤ fuel := by omega
      have hp : 0 < n / 2 := by omega
      obtain ⟨h1, h3⟩ := ih (n / 2) hd hp
      constructor
      · rw [pow_succ]; omega
      · rw [pow_succ]; omega

theorem log2Nat_spec (n : Nat) (h : 0 < n) :
    2 ^ log2Nat n ≤ n ∧ n < 2 ^ (log2Nat n + 1) :=
  log2Fuel_spec n n (Nat.le_refl n) h

theorem quotient_between (q : ℚ) (N D ln ld : ℕ) (hD : 0 < D) (hq : q = (N : ℚ) / (D : ℚ))
    (n1 : 2 ^ ln ≤ N) (n2 : N < 2 ^ (ln + 1)) (d1 : 2 ^ ld ≤ D) (d2 : D < 2 ^ (ld + 1)) :
    (2 : ℚ) ^ ((ln : ℤ) - (ld : ℤ) - 1) ≤ q ∧ q < (2 : ℚ) ^ ((ln : ℤ) - (ld : ℤ) + 1) := by
  have hDq : (0 : ℚ) < (D : ℚ) := by exact_mod_cast hD
  have n1q : (2 : ℚ) ^ ln ≤ (N : ℚ) := by exact_mod_cast n1
  have n2q : (N : ℚ) < (2 : ℚ) ^ (ln + 1) := by exact_mod_cast n2
  have d1q : (2 : ℚ) ^ ld ≤ (D : ℚ) := by exact_mod_cast d1
  have d2q : (D : ℚ) < (2 : ℚ) ^ (ld + 1) := by exact_mod_cast d2
  have two_ne : (2 : ℚ) ≠ 0 := by norm_num
  constructor
  · have : (2 : ℚ) ^ ((ln : ℤ) - (ld : ℤ) - 1) = (2 : ℚ) ^ ln / (2 : ℚ) ^ (ld + 1) := by
      rw [show (ln : ℤ) - (ld : ℤ) - 1 = ((ln : ℕ) : ℤ) - ((ld + 1 : ℕ) : ℤ) by push_cast; ring]
      rw [zpow_sub₀ two_ne, zpow_natCast, zpow_natCast]
    rw [this, hq, div_le_div_iff₀ (by positivity) hDq]
    calc (2 : ℚ) ^ ln * (D : ℚ) ≤ (N : ℚ) * (D : ℚ) :=
          mul_le_mul_of_nonneg_right n1q (le_of_lt hDq)
      _ ≤ (N : ℚ) * 2 ^ (ld + 1) :=
          mul_le_mul_of_nonneg_left (le_of_lt d2q) (by positivity)
  · have : (2 : ℚ) ^ ((ln : ℤ) - (ld : ℤ) + 1) = (2 : ℚ) ^ (ln + 1) / (2 : ℚ) ^ ld := by
      rw [show (ln : ℤ) - (ld : ℤ) + 1 = ((ln + 1 : ℕ) : ℤ) - ((ld : ℕ) : ℤ) by push_cast; ring]
      rw [zpow_sub₀ two_ne, zpow_natCast, zpow_natCast]
    rw [this, hq, div_lt_div_iff₀ hDq (by positivity)]
    calc (N : ℚ) * 2 ^ ld < 2 ^ (ln + 1) * 2 ^ ld :=
          mul_lt_mul_of_pos_right n2q (by positivity)
      _ ≤ 2 ^ (ln + 1) * (D : ℚ) :=
          mul_le_mul_of_nonneg_left d1q (by positivity)

theorem ilog2_spec (q : ℚ) (hq : 0 < q) :
    (2 : ℚ) ^ ilog2 q ≤ q ∧ q < (2 : ℚ) ^ (ilog2 q + 1) := by
  have hnum : 0 < q.num := Rat.num_pos.mpr hq
  have hN : 0 < q.num.natAbs := Int.natAbs_pos.mpr (ne_of_gt hnum)
  obtain ⟨n1, n2⟩ := log2Nat_spec _ hN
  obtain ⟨d1, d2⟩ := log2Nat_spec _ q.den_pos
  have hcast : ((q.num.natAbs : ℕ) : ℚ) = (q.num : ℚ) := by
    rw [← Int.cast_natCast, Int.natAbs_of_nonneg (le_of_lt hnum)]
  have hqeq : q = ((q.num.natAbs : ℕ) : ℚ) / (q.den : ℚ) := by
    rw [hcast]; exact (Rat.num_div_den q).symm
  obtain ⟨hlow, hup⟩ := quotient_between q _ _ _ _ q.den_pos hqeq n1 n2 d1 d2
  unfold ilog2
  simp only
  split
  · next h => exact ⟨h, hup⟩
  · next h =>
    refine ⟨hlow, ?_⟩
    rw [sub_add_cancel]
    exact lt_of_not_le h

theorem roundHalfEven_intCast (n : ℤ) : roundHalfEven (n : ℚ) = n := by
  simp [roundHalfEven]

theorem le_roundHalfEven (c : ℤ) (z : ℚ) (h : (c : ℚ) ≤ z) : c ≤ roundHalfEven z := by
  have hf : c ≤ ⌊z⌋ := Int.le_floor.mpr h
  unfold roundHalfEven
  simp only
  split_ifs <;> omega

theorem roundHalfEven_lt (c : ℤ) (z : ℚ) (h : z < (c : ℚ) - 1 / 2) : roundHalfEven z < c := by
  have hfz : (⌊z⌋ : ℚ) ≤ z := Int.floor_le z
  have hf : ⌊z⌋ < c := by
    have : (⌊z⌋ : ℚ) < (c : ℚ) := by linarith
    exact_mod_cast this
  unfold roundHalfEven
  simp only
  by_cases h1 : z - (⌊z⌋ : ℚ) < 1 / 2
  · simp only [h1, if_true]; exact hf
  · have h2 : ⌊z⌋ + 1 < c := by
      have : ((⌊z⌋ + 1 : ℤ) : ℚ) < (c : ℚ) := by push_cast; linarith
      exact_mod_cast this
    simp only [h1, if_false]
    split_ifs <;> omega

theorem roundHalfEven_neg (z : ℚ) : roundHalfEven (-z) = -roundHalfEven z := by
  by_cases hz : (⌊z⌋ : ℚ) = z
  · rw [← hz, ← Int.cast_neg, roundHalfEven_intCast, roundHalfEven_intCast]
  · have hlt : (⌊z⌋ : ℚ) < z := lt_of_le_of_ne (Int.floor_le z) hz
    have hlt2 : z < (⌊z⌋ : ℚ) + 1 := Int.lt_floor_add_one z
    have hfl : ⌊-z⌋ = -⌊z⌋ - 1 := by
      rw [Int.floor_eq_iff]
      push_cast
      constructor <;> linarith
    unfold roundHalfEven
    simp only [hfl]
    push_cast
    by_cases h1 : z - (⌊z⌋ : ℚ) < 1 / 2
    · have a1 : ¬ (-z - (-(⌊z⌋ : ℚ) - 1) < 1 / 2) := by linarith
      have a2 : 1 / 2 < -z - (-(⌊z⌋ : ℚ) - 1) := by linarith
      simp only [h1, a1, a2, if_true, if_false]
      ring
    · by_cases h2 : 1 / 2 < z - (⌊z⌋ : ℚ)
      · have a1 : -z - (-(⌊z⌋ : ℚ) - 1) < 1 / 2 := by linarith
        simp only [h1, h2, a1, if_true, if_false]
        ring
      · have a1 : ¬ (-z - (-(⌊z⌋ : ℚ) - 1) < 1 / 2) := by linarith
        have a2 : ¬ (1 / 2 < -z - (-(⌊z⌋ : ℚ) - 1)) := by linarith
        simp only [h1, h2, a1, a2, if_false]
        split_ifs <;> omega

theorem roundBinary_neg (p : Nat) (emin : Int) (q : ℚ) :
    roundBinary p emin (-q) = -roundBinary p emin q := by
  unfold roundBinary
  by_cases h : q = 0
  · simp [h]
  · have h2 : -q ≠ 0 := neg_ne_zero.mpr h
    simp only [h, h2, if_false, abs_neg, neg_div, roundHalfEven_neg]
    push_cast
    ring

theorem two_zpow_neg_natCast (k : ℕ) : (2 : ℚ) ^ (-(k : ℤ)) = ((2 : ℚ) ^ k)⁻¹ := by
  rw [zpow_neg, zpow_natCast]

theorem ilog2_lt_of_lt (q : ℚ) (hq : 0 < q) (n : ℤ) (h : q < (2 : ℚ) ^ n) : ilog2 q < n := by
  have h1 := (ilog2_spec q hq).1
  have : (2 : ℚ) ^ ilog2 q < (2 : ℚ) ^ n := lt_of_le_of_lt h1 h
  exact (zpow_lt_zpow_iff_right₀ (by norm_num : (1 : ℚ) < 2)).mp this

theorem le_ilog2_of_le (q : ℚ) (hq : 0 < q) (n : ℤ) (h : (2 : ℚ) ^ n ≤ q) : n ≤ ilog2 q := by
  have h1 := (ilog2_spec q hq).2
  have : (2 : ℚ) ^ n < (2 : ℚ) ^ (ilog2 q + 1) := lt_of_le_of_lt h h1
  have := (zpow_lt_zpow_iff_right₀ (by norm_num : (1 : ℚ) < 2)).mp this
  omega

/-- An integer below `2 ^ 53` is a `float64`. -/
theorem f64_natCast (n : ℕ) (h : n < 2 ^ 53) : f64 (n : ℚ) = (n : ℚ) := by
  unfold f64 roundBinary
  by_cases h0 : (n : ℚ) = 0
  · simp [h0]
  · have hn : 0 < n := Nat.pos_of_ne_zero (by intro hc; apply h0; simp [hc])
    have hq : (0 : ℚ) < (n : ℚ) := by exact_mod_cast hn
    have habs : |(n : ℚ)| = (n : ℚ) := abs_of_pos hq
    have hlt : ilog2 (n : ℚ) < 53 := by
      apply ilog2_lt_of_lt _ hq
      rw [show (53 : ℤ) = ((53 : ℕ) : ℤ) by norm_num, zpow_natCast]
      exact_mod_cast h
    have hge : 0 ≤ ilog2 (n : ℚ) := by
      apply le_ilog2_of_le _ hq
      rw [zpow_zero]
      exact_mod_cast hn
    have hmax : max (ilog2 (n : ℚ)) (-1022) = ilog2 (n : ℚ) := max_eq_left (by omega)
    simp only [h0, if_false, habs, hmax]
    obtain ⟨k, hk⟩ : ∃ k : ℕ, ilog2 (n : ℚ) - (((53 : ℕ) : ℤ) - 1) = -(k : ℤ) :=
      ⟨(52 - ilog2 (n : ℚ)).toNat, by push_cast; omega⟩
    rw [hk, two_zpow_neg_natCast, div_inv_eq_mul]
    have : (n : ℚ) * (2 : ℚ) ^ k = (((n * 2 ^ k : ℕ) : ℤ) : ℚ) := by push_cast; ring
    rw [this, roundHalfEven_intCast]
    push_cast
    field_simp

theorem mathRound_neg (x : ℚ) : mathRound (-x) = -mathRound x := by
  unfold mathRound
  rcases lt_trichotomy x 0 with h | h | h
  · have h1 : ¬ (0 ≤ x) := not_le.mpr h
    have h2 : 0 ≤ -x := by linarith
    simp [h1, h2]
  · subst h; norm_num
  · have h1 : 0 ≤ x := le_of_lt h
    have h2 : ¬ (0 ≤ -x) := by linarith
    simp [h1, h2]

theorem mathRound_near (x : ℚ) : |(mathRound x : ℚ) - x| ≤ 1 / 2 := by
  unfold mathRound
  split_ifs with h
  · have h1 := Int.floor_le (x + 1 / 2)
    have h2 := Int.lt_floor_add_one (x + 1 / 2)
    rw [abs_le]; constructor <;> linarith
  · have h1 := Int.floor_le (-x + 1 / 2)
    have h2 := Int.lt_floor_add_one (-x + 1 / 2)
    push_cast
    rw [abs_le]; constructor <;> linarith

/-- The `float64` quotient of two small positive integers rounds to the same integer as
their exact quotient. -/
theorem mathRound_f64_div_pos (a b : ℕ) (ha : 0 < a) (ha2 : a < 2 ^ 52) (hb : 0 < b)
    (hb2 : b < 2 ^ 53) :
    mathRound (f64 ((a : ℚ) / (b : ℚ))) = mathRound ((a : ℚ) / (b : ℚ)) := by
  have haq : (0 : ℚ) < (a : ℚ) := by exact_mod_cast ha
  have hbq : (0 : ℚ) < (b : ℚ) := by exact_mod_cast hb
  have ha2q : (a : ℚ) < 2 ^ 52 := by exact_mod_cast ha2
  have hb2q : (b : ℚ) < 2 ^ 53 := by exact_mod_cast hb2
  have hb1q : (1 : ℚ) ≤ (b : ℚ) := by exact_mod_cast hb
  set q : ℚ := (a : ℚ) / (b : ℚ) with hqdef
  have hq : 0 < q := div_pos haq hbq
  have hqa : q ≤ (a : ℚ) := div_le_self (le_of_lt haq) hb1q
  -- the exponent
  have he1 : ilog2 q < 52 := by
    apply ilog2_lt_of_lt _ hq
    rw [show (52 : ℤ) = ((52 : ℕ) : ℤ) by norm_num, zpow_natCast]
    exact lt_of_le_of_lt hqa ha2q
  have he2 : -53 ≤ ilog2 q := by
    apply le_ilog2_of_le _ hq
    rw [show (-53 : ℤ) = -((53 : ℕ) : ℤ) by norm_num, two_zpow_neg_natCast, hqdef,
      le_div_iff₀ hbq]
    have h1 : (1 : ℚ) ≤ (a : ℚ) := by exact_mod_cast ha
    calc ((2 : ℚ) ^ 53)⁻¹ * (b : ℚ) ≤ ((2 : ℚ) ^ 53)⁻¹ * 2 ^ 53 :=
          mul_le_mul_of_nonneg_left (le_of_lt hb2q) (by positivity)
      _ = 1 := by norm_num
      _ ≤ (a : ℚ) := h1
  obtain ⟨k, hk⟩ : ∃ k : ℕ, ilog2 q = 51 - (k : ℤ) := ⟨(51 - ilog2 q).toNat, by omega⟩
  have hspec := (ilog2_spec q hq).1
  -- b < 2 ^ (k + 1)
  have hbk : (b : ℚ) < 2 ^ (k + 1) := by
    rw [hk, show (51 : ℤ) - (k : ℤ) = ((51 : ℕ) : ℤ) - ((k : ℕ) : ℤ) by norm_num,
      zpow_sub₀ (by norm_num : (2 : ℚ) ≠ 0), zpow_natCast, zpow_natCast, hqdef,
      div_le_div_iff₀ (by positivity) hbq] at hspec
    have : (2 : ℚ) ^ 51 * (b : ℚ) < 2 ^ 51 * 2 ^ (k + 1) := by
      calc (2 : ℚ) ^ 51 * (b : ℚ) ≤ (a : ℚ) * 2 ^ k := hspec
        _ < 2 ^ 52 * 2 ^ k := mul_lt_mul_of_pos_right ha2q (by positivity)
        _ = 2 ^ 51 * 2 ^ (k + 1) := by ring
    exact lt_of_mul_lt_mul_left this (by positivity)
  -- the rounded value
  have hmax : max (ilog2 q) (-1022) = ilog2 q := max_eq_left (by omega)
  have hu : ilog2 q - (((53 : ℕ) : ℤ) - 1) = -(((k + 1 : ℕ)) : ℤ) := by push_cast; omega
  have hf : f64 q = (roundHalfEven (q * 2 ^ (k + 1)) : ℚ) / 2 ^ (k + 1) := by
    unfold f64 roundBinary
    simp only [ne_of_gt hq, if_false, abs_of_pos hq, hmax]
    rw [hu, two_zpow_neg_natCast, div_inv_eq_mul, div_eq_mul_inv]
  -- the integer that the exact quotient rounds to
  set m : ℤ := ⌊q + 1 / 2⌋ with hm
  have hm1 : (m : ℚ) ≤ q + 1 / 2 := Int.floor_le _
  have hm2 : q + 1 / 2 < (m : ℚ) + 1 := Int.lt_floor_add_one _
  have hpk : (0 : ℚ) < 2 ^ k := by positivity
  -- the integrality gap: (2 m + 1) b - 2 a ≥ 1
  have hgap : (1 : ℚ) ≤ (2 * (m : ℚ) + 1) * (b : ℚ) - 2 * (a : ℚ) := by
    have hlt : 2 * (a : ℚ) < (2 * (m : ℚ) + 1) * (b : ℚ) := by
      have : q < (m : ℚ) + 1 / 2 := by linarith
      rw [hqdef, div_lt_iff₀ hbq] at this
      linarith
    have hint : (2 * (a : ℤ)) < (2 * m + 1) * (b : ℤ) := by exact_mod_cast hlt
    have : (2 * (a : ℤ)) + 1 ≤ (2 * m + 1) * (b : ℤ) := hint
    have : ((2 * (a : ℤ) + 1 : ℤ) : ℚ) ≤ (((2 * m + 1) * (b : ℤ) : ℤ) : ℚ) := by exact_mod_cast this
    push_cast at this
    linarith
  have hqb : q * (b : ℚ) = (a : ℚ) := by rw [hqdef]; field_simp
  have hlow : (((2 * m - 1) * 2 ^ k : ℤ)) ≤ roundHalfEven (q * 2 ^ (k + 1)) := by
    apply le_roundHalfEven
    push_cast
    rw [pow_succ]
    nlinarith
  have hhigh : roundHalfEven (q * 2 ^ (k + 1)) < (((2 * m + 1) * 2 ^ k : ℤ)) := by
    apply roundHalfEven_lt
    push_cast
    -- (2 m + 1) 2^k - q 2^(k+1) = 2^k ((2m+1) b - 2a) / b ≥ 2^k / b > 1/2
    have h1 : (2 * (m : ℚ) + 1) * 2 ^ k - q * 2 ^ (k + 1)
        = 2 ^ k * ((2 * (m : ℚ) + 1) * (b : ℚ) - 2 * (a : ℚ)) / (b : ℚ) := by
      rw [← hqb]; field_simp; ring
    have h2 : (1 : ℚ) / 2 < 2 ^ k * ((2 * (m : ℚ) + 1) * (b : ℚ) - 2 * (a : ℚ)) / (b : ℚ) := by
      rw [lt_div_iff₀ hbq]
      have : (b : ℚ) < 2 * 2 ^ k := by rw [pow_succ] at hbk; linarith
      nlinarith
    linarith
  have hnonneg : (0 : ℤ) ≤ roundHalfEven (q * 2 ^ (k + 1)) := by
    apply le_roundHalfEven
    push_cast
    positivity
  have hmq : mathRound q = m := by
    unfold mathRound
    simp only [le_of_lt hq, if_true, hm]
  rw [hmq, hf]
  unfold mathRound
  have hR0 : (0 : ℚ) ≤ (roundHalfEven (q * 2 ^ (k + 1)) : ℚ) / 2 ^ (k + 1) := by
    apply div_nonneg _ (by positivity)
    exact_mod_cast hnonneg
  simp only [hR0, if_true]
  rw [Int.floor_eq_iff]
  have hlowq : ((2 * (m : ℚ) - 1) * 2 ^ k) ≤ (roundHalfEven (q * 2 ^ (k + 1)) : ℚ) := by
    exact_mod_cast hlow
  have hhighq : (roundHalfEven (q * 2 ^ (k + 1)) : ℚ) + 1 ≤ ((2 * (m : ℚ) + 1) * 2 ^ k) := by
    have : roundHalfEven (q * 2 ^ (k + 1)) + 1 ≤ (((2 * m + 1) * 2 ^ k : ℤ)) := hhigh
    exact_mod_cast this
  have hp1 : (0 : ℚ) < 2 ^ (k + 1) := by positivity
  have hpe : (2 : ℚ) ^ (k + 1) = 2 * 2 ^ k := by rw [pow_succ]; ring
  generalize (roundHalfEven (q * 2 ^ (k + 1)) : ℚ) = R at hlowq hhighq ⊢
  constructor
  · rw [← sub_le_iff_le_add, le_div_iff₀ hp1, hpe]
    linarith
  · rw [← lt_sub_iff_add_lt, div_lt_iff₀ hp1, hpe]
    linarith

theorem wrapInt64_wrapInt64_add (x y : Int) :
    wrapInt64 (wrapInt64 x + y) = wrapInt64 (x + y) := by
  unfold wrapInt64; omega

theorem wrapInt64_of_small (x : Int) (h1 : -2 ^ 63 ≤ x) (h2 : x < 2 ^ 63) :
    wrapInt64 x = x := by
  unfold wrapInt64; omega

theorem wrapInt64_idem (x : Int) : wrapInt64 (wrapInt64 x) = wrapInt64 x := by
  unfold wrapInt64; omega

theorem spans_fold_wrap (spans : List Span) :
    ∀ acc : Int, wrapInt64 (spans.foldl (fun acc s => wrapInt64 (acc + s.Duration)) acc)
      = wrapInt64 (acc + (spans.map (fun s => s.Duration)).sum) := by
  induction spans with
  | nil => intro acc; simp
  | cons s rest ih =>
    intro acc
    rw [List.foldl_cons, ih, List.map_cons, List.sum_cons, wrapInt64_wrapInt64_add, add_assoc]

theorem processors_fold_wrap (ps : List Processor) :
    ∀ acc : Int,
      wrapInt64 (ps.foldl
        (fun acc p => p.Spans.foldl (fun acc s => wrapInt64 (acc + s.Duration)) acc) acc)
      = wrapInt64 (acc + (ps.map (fun p => (p.Spans.map (fun s => s.Duration)).sum)).sum) := by
  induction ps with
  | nil => intro acc; simp
  | cons p rest ih =>
    intro acc
    rw [List.foldl_cons, ih, List.map_cons, List.sum_cons, ← wrapInt64_wrapInt64_add,
      spans_fold_wrap, wrapInt64_wrapInt64_add, add_assoc]

theorem spans_fold_fixed (spans : List Span) :
    ∀ acc : Int, wrapInt64 acc = acc →
      wrapInt64 (spans.foldl (fun acc s => wrapInt64 (acc + s.Duration)) acc)
        = spans.foldl (fun acc s => wrapInt64 (acc + s.Duration)) acc := by
  induction spans with
  | nil => intro acc h; simpa using h
  | cons s rest ih =>
    intro acc _
    rw [List.foldl_cons]
    exact ih _ (wrapInt64_idem _)

theorem processors_fold_fixed (ps : List Processor) :
    ∀ acc : Int, wrapInt64 acc = acc →
      wrapInt64 (ps.foldl
        (fun acc p => p.Spans.foldl (fun acc s => wrapInt64 (acc + s.Duration)) acc) acc)
      = ps.foldl
        (fun acc p => p.Spans.foldl (fun acc s => wrapInt64 (acc + s.Duration)) acc) acc := by
  induction ps with
  | nil => intro acc h; simpa using h
  | cons p rest ih =>
    intro acc h
    rw [List.foldl_cons]
    exact ih _ (spans_fold_fixed _ _ h)

/-- The accumulated `totalDuration` is the exact sum, wrapped to 64 bits. -/
theorem totalDuration_eq (t : Trace) : totalDuration t = wrapInt64 (durationSum t) := by
  unfold totalDuration durationSum
  rw [← processors_fold_fixed _ 0 (by decide), processors_fold_wrap, zero_add]

theorem samples_fold_mod (l : List (Nat × List Nat)) :
    ∀ acc : Nat, (l.foldl (fun acc kv => (acc + kv.2.length) % 2 ^ 64) acc) % 2 ^ 64
      = (acc + (l.map (fun kv => kv.2.length)).sum) % 2 ^ 64 := by
  induction l with
  | nil => intro acc; simp
  | cons kv rest ih =>
    intro acc
    rw [List.foldl_cons, ih, List.map_cons, List.sum_cons]
    omega

theorem samples_fold_lt (l : List (Nat × List Nat)) :
    ∀ acc : Nat, acc < 2 ^ 64 →
      l.foldl (fun acc kv => (acc + kv.2.length) % 2 ^ 64) acc < 2 ^ 64 := by
  induction l with
  | nil => intro acc h; simpa using h
  | cons kv rest ih =>
    intro acc _
    rw [List.foldl_cons]
    exact ih _ (Nat.mod_lt _ (by norm_num))

/-- The accumulated `totalSamples` is the exact count, modulo `2 ^ 64`. -/
theorem totalSamples_eq (t : Trace) : totalSamples t = sampleCount t % 2 ^ 64 := by
  unfold totalSamples sampleCount
  have h1 := samples_fold_mod t.CPUSamples 0
  have h2 := samples_fold_lt t.CPUSamples 0 (by norm_num)
  rw [Nat.mod_eq_of_lt h2, zero_add] at h1
  exact h1

/-- Claim C5, counterexample. A stuck span is an interesting span and adds no sample: the
flame graph of a goroutine whose only span is stuck has no sample. -/
theorem stuck_span_adds_no_sample :
    isInterestingState StateStuck = true ∧
    spanStep emptyTrace ⟨StateStuck, 0, 5⟩ [] = .ok [] ∧
    buildFlameGraph (fun _ _ => 0) emptyTrace (some ⟨1, [⟨StateStuck, 0, 5⟩]⟩) = .ok [] :=
  ⟨rfl, rfl, rfl⟩

/-- One iteration of the loop over the spans: a span whose state is a blocked variant, or
ready or created, appends one call, and a stuck span appends none. -/
theorem spanStep_interesting (t : Trace) (span : Span) :
    (isBlockedState span.State = true ∨ isReadyState span.State = true →
      ∃ cat, AddsOneUnder t span cat) ∧
    (span.State = StateStuck → AddsNone t span) := by
  constructor
  · intro h
    have key : ∃ cat, spanRoot span.State = .ok cat ∧ cat ≠ [] := by
      cases hs : span.State <;> rw [hs] at h <;>
        first
          | exact ⟨_, rfl, by decide!⟩
          | (exfalso; simp [isBlockedState, isReadyState] at h)
    obtain ⟨cat, h1, h2⟩ := key
    exact ⟨cat, addsOne_of_root t span cat h1 h2⟩
  · intro h
    exact addsNone_of_root t span (by rw [h]; rfl)

theorem f64_intCast (a : ℤ) (h : |a| < 2 ^ 53) : f64 (a : ℚ) = (a : ℚ) := by
  rcases le_or_lt 0 a with h0 | h0
  · obtain ⟨n, rfl⟩ := Int.eq_ofNat_of_zero_le h0
    rw [abs_of_nonneg h0] at h
    have : n < 2 ^ 53 := by exact_mod_cast h
    simpa using f64_natCast n this
  · obtain ⟨n, hn⟩ := Int.eq_ofNat_of_zero_le (by omega : 0 ≤ -a)
    rw [abs_of_neg h0, hn] at h
    have hlt : n < 2 ^ 53 := by exact_mod_cast h
    have ha : a = -(n : ℤ) := by omega
    rw [ha]
    push_cast
    unfold f64
    rw [roundBinary_neg]
    exact congrArg Neg.neg (f64_natCast n hlt)

theorem mathRound_f64_div (a : ℤ) (b : ℕ) (ha : |a| < 2 ^ 52) (hb : 0 < b) (hb2 : b < 2 ^ 53) :
    mathRound (f64 (f64 (a : ℚ) / f64 (b : ℚ))) = mathRound ((a : ℚ) / (b : ℚ)) := by
  have ha53 : |a| < 2 ^ 53 := lt_trans ha (by norm_num)
  rw [f64_intCast a ha53, f64_natCast b hb2]
  rcases lt_trichotomy a 0 with h0 | h0 | h0
  · obtain ⟨n, hn⟩ := Int.eq_ofNat_of_zero_le (by omega : 0 ≤ -a)
    have hpos : 0 < n := by omega
    rw [abs_of_neg h0, hn] at ha
    have hlt : n < 2 ^ 52 := by exact_mod_cast ha
    have hae : a = -(n : ℤ) := by omega
    rw [hae]
    push_cast
    rw [neg_div]
    unfold f64
    rw [roundBinary_neg, mathRound_neg, mathRound_neg]
    exact congrArg Neg.neg (mathRound_f64_div_pos n b hpos hlt hb hb2)
  · subst h0
    simp [f64, roundBinary, mathRound]
  · obtain ⟨n, hn⟩ := Int.eq_ofNat_of_zero_le (le_of_lt h0)
    subst hn
    have hpos : 0 < n := by exact_mod_cast h0
    rw [abs_of_pos h0] at ha
    have hlt : n < 2 ^ 52 := by exact_mod_cast ha
    simpa using mathRound_f64_div_pos n b hpos hlt hb hb2

theorem sampleDuration_eq (indef : Int → Nat → Int) (t : Trace)
    (hn : 0 < sampleCount t) (hn2 : sampleCount t < 2 ^ 53) (hd : |durationSum t| < 2 ^ 52) :
    sampleDuration indef t = mathRound ((durationSum t : ℚ) / (sampleCount t : ℚ)) := by
  have hd' := abs_lt.mp hd
  have htd : totalDuration t = durationSum t := by
    rw [totalDuration_eq]
    exact wrapInt64_of_small _ (by omega) (by omega)
  have hts : totalSamples t = sampleCount t := by
    rw [totalSamples_eq]
    exact Nat.mod_eq_of_lt (by omega)
  unfold sampleDuration
  simp only [htd, hts, Nat.cast_ofNat, Int.cast_natCast]
  rw [if_neg (by omega)]
  have hr := mathRound_f64_div (durationSum t) (sampleCount t) hd hn hn2
  rw [hr]
  -- the rounded quotient is an int64
  have hnear := abs_le.mp (mathRound_near ((durationSum t : ℚ) / (sampleCount t : ℚ)))
  have hb1 : (1 : ℚ) ≤ (sampleCount t : ℚ) := by exact_mod_cast hn
  have hq : |(durationSum t : ℚ) / (sampleCount t : ℚ)| ≤ |(durationSum t : ℚ)| := by
    rw [abs_div]
    apply div_le_self (abs_nonneg _)
    rw [abs_of_pos (by linarith)]
    exact hb1
  have habs : |(durationSum t : ℚ)| < 2 ^ 52 := by exact_mod_cast hd
  have hq2 := abs_le.mp hq
  have hin : -2 ^ 63 ≤ mathRound ((durationSum t : ℚ) / (sampleCount t : ℚ)) ∧
      mathRound ((durationSum t : ℚ) / (sampleCount t : ℚ)) < 2 ^ 63 := by
    constructor
    · have : (-(2 : ℚ) ^ 63) ≤ (mathRound ((durationSum t : ℚ) / (sampleCount t : ℚ)) : ℚ) := by
        linarith
      exact_mod_cast this
    · have : (mathRound ((durationSum t : ℚ) / (sampleCount t : ℚ)) : ℚ) < (2 : ℚ) ^ 63 := by
        linarith
      exact_mod_cast this
  rw [if_pos hin]

theorem running_frames_duration (indef : Int → Nat → Int) (t : Trace) (g : Option Goroutine)
    (calls : List AddSampleCall) (h : buildFlameGraph indef t g = .ok calls) :
    ∀ c ∈ calls, c.root = lit "Running" → ∀ f ∈ c.frames,
      f.Duration = sampleDuration indef t := by
  have hcpu : ∀ (l : List Nat), ∀ c ∈ l.map (runningCall t (sampleDuration indef t)),
      ∀ f ∈ c.frames, f.Duration = sampleDuration indef t := by
    intro l c hc f hf
    obtain ⟨s, _, rfl⟩ := List.mem_map.mp hc
    simp only [runningCall, List.mem_map, List.mem_reverse] at hf
    obtain ⟨pc, _, rfl⟩ := hf
    rfl
  cases g with
  | none =>
    simp only [buildFlameGraph, rangeSamples_eq, List.nil_append, Except.ok.injEq] at h
    subst h
    intro c hc _
    exact hcpu _ c hc
  | some g =>
    simp only [buildFlameGraph, doSamples_eq, List.nil_append] at h
    obtain ⟨rest, hrest, hne⟩ := spansLoop_shape t g.Spans _ calls h
    subst hrest
    intro c hc hroot
    rcases List.mem_append.mp hc with hc | hc
    · exact hcpu _ c hc
    · exact absurd hroot (hne c hc)

/-- Claim C6, counterexample. With one processor span of `2 ^ 53 + 1` nanoseconds and one
CPU sample the sample interval is `2 ^ 53`, which is not the exact quotient `2 ^ 53 + 1`
rounded to the nearest integer: the conversion to `float64` loses the last bit. -/
theorem sample_interval_not_nearest :
    sampleDuration (fun _ _ => 0) longTrace = 2 ^ 53 ∧
    (durationSum longTrace : ℚ) / (sampleCount longTrace : ℚ) = 2 ^ 53 + 1 ∧
    ¬ |((sampleDuration (fun _ _ => 0) longTrace : ℤ) : ℚ)
        - (durationSum longTrace : ℚ) / (sampleCount longTrace : ℚ)| ≤ 1 / 2 := by
  decide!

/-- Claim C6, amended. When the trace has at least one and fewer than `2 ^ 53` CPU samples
and the durations of the processor spans sum to less than `2 ^ 52` in absolute value, the
sample interval is the sum of the durations of all spans of all processors divided by the
number of CPU samples of all goroutines, rounded to the nearest integer (halves away from
zero); it is the duration of every frame of every "Running" sample in the whole-trace view
and in the view of any goroutine. -/
theorem sample_interval_global (indef : Int → Nat → Int) (t : Trace)
    (hn : 0 < sampleCount t) (hn2 : sampleCount t < 2 ^ 53) (hd : |durationSum t| < 2 ^ 52) :
    sampleDuration indef t = mathRound ((durationSum t : ℚ) / (sampleCount t : ℚ)) ∧
    |((sampleDuration indef t : ℤ) : ℚ) - (durationSum t : ℚ) / (sampleCount t : ℚ)| ≤ 1 / 2 ∧
    ∀ (g : Option Goroutine) (calls : List AddSampleCall),
      buildFlameGraph indef t g = .ok calls →
      ∀ c ∈ calls, c.root = lit "Running" → ∀ f ∈ c.frames,
        f.Duration = mathRound ((durationSum t : ℚ) / (sampleCount t : ℚ)) := by
  have h := sampleDuration_eq indef t hn hn2 hd
  refine ⟨h, ?_, ?_⟩
  · rw [h]; exact mathRound_near _
  · intro g calls hc c hmem hroot f hf
    rw [← h]
    exact running_frames_duration indef t g calls hc c hmem hroot f hf

/-- Claim C6, witness: 1501 nanoseconds of processor time and three CPU samples give the
interval 500. -/
theorem sample_interval_global_witness :
    (0 < sampleCount smallTrace ∧ sampleCount smallTrace < 2 ^ 53 ∧
      |durationSum smallTrace| < 2 ^ 52) ∧
    (sampleDuration (fun _ _ => 0) smallTrace
        = mathRound ((durationSum smallTrace : ℚ) / (sampleCount smallTrace : ℚ)) ∧
      |((sampleDuration (fun _ _ => 0) smallTrace : ℤ) : ℚ)
        - (durationSum smallTrace : ℚ) / (sampleCount smallTrace : ℚ)| ≤ 1 / 2 ∧
      ∀ (g : Option Goroutine) (calls : List AddSampleCall),
        buildFlameGraph (fun _ _ => 0) smallTrace g = .ok calls →
        ∀ c ∈ calls, c.root = lit "Running" → ∀ f ∈ c.frames,
          f.Duration
            = mathRound ((durationSum smallTrace : ℚ) / (sampleCount smallTrace : ℚ))) ∧
    sampleDuration (fun _ _ => 0) smallTrace = 500 :=
  ⟨⟨by decide, by decide, by decide⟩,
    sample_interval_global (fun _ _ => 0) smallTrace (by decide) (by decide) (by decide),
    by decide!⟩

theorem lit_dot : lit "." = [46] := by decide!
theorem lit_slash : lit "/" = [47] := by decide!

theorem isPrefixOf_single_cons (c x : Nat) (xs : GoString) :
    List.isPrefixOf [c] (x :: xs) = (c == x) := by
  simp [List.isPrefixOf]

theorem indexAt_single_not_mem (c : Nat) (s : GoString) (h : c ∉ s) :
    ∀ i, indexAt [c] s i = -1 := by
  induction s with
  | nil => intro i; simp [indexAt, List.isPrefixOf]
  | cons x xs ih =>
    intro i
    have hx : c ≠ x := fun e => h (by simp [e])
    have hxs : c ∉ xs := fun e => h (by simp [e])
    simp [indexAt, isPrefixOf_single_cons, hx, ih hxs]

theorem indexAt_single_append (c : Nat) (pre post : GoString) (h : c ∉ pre) :
    ∀ i, indexAt [c] (pre ++ c :: post) i = (i : Int) + (pre.length : Int) := by
  induction pre with
  | nil => intro i; simp [indexAt, isPrefixOf_single_cons]
  | cons x xs ih =>
    intro i
    have hx : c ≠ x := fun e => h (by simp [e])
    have hxs : c ∉ xs := fun e => h (by simp [e])
    show indexAt [c] (x :: (xs ++ c :: post)) i = _
    rw [indexAt, isPrefixOf_single_cons, if_neg (by simpa using hx), ih hxs, List.length_cons]
    push_cast
    ring

theorem lastIndexAt_single_not_mem (c : Nat) (s : GoString) (h : c ∉ s) :
    ∀ i best, lastIndexAt [c] s i best = best := by
  induction s with
  | nil => intro i best; simp [lastIndexAt, List.isPrefixOf]
  | cons x xs ih =>
    intro i best
    have hx : c ≠ x := fun e => h (by simp [e])
    have hxs : c ∉ xs := fun e => h (by simp [e])
    simp [lastIndexAt, isPrefixOf_single_cons, hx, ih hxs]

theorem lastIndexAt_single_append (c : Nat) (pre post : GoString) (h : c ∉ post) :
    ∀ i best, lastIndexAt [c] (pre ++ c :: post) i best = (i : Int) + (pre.length : Int) := by
  induction pre with
  | nil =>
    intro i best
    simp [lastIndexAt, isPrefixOf_single_cons, lastIndexAt_single_not_mem c post h]
  | cons x xs ih =>
    intro i best
    show lastIndexAt [c] (x :: (xs ++ c :: post)) i best = _
    rw [lastIndexAt, ih, List.length_cons]
    push_cast
    ring

theorem Index_single_not_mem (c : Nat) (s : GoString) (h : c ∉ s) : Index s [c] = -1 :=
  indexAt_single_not_mem c s h 0

theorem Index_single_append (c : Nat) (pre post : GoString) (h : c ∉ pre) :
    Index (pre ++ c :: post) [c] = (pre.length : Int) := by
  simp [Index, indexAt_single_append c pre post h]

theorem LastIndex_single_append (c : Nat) (pre post : GoString) (h : c ∉ post) :
    LastIndex (pre ++ c :: post) [c] = (pre.length : Int) := by
  simp [LastIndex, lastIndexAt_single_append c pre post h]

theorem LastIndex_single_not_mem (c : Nat) (s : GoString) (h : c ∉ s) :
    LastIndex s [c] = -1 :=
  lastIndexAt_single_not_mem c s h 0 (-1)

theorem Contains_single (c : Nat) (s : GoString) : Contains s [c] = true ↔ c ∈ s := by
  unfold Contains
  constructor
  · intro h
    by_contra hc
    rw [Index_single_not_mem c s hc] at h
    simp at h
  · intro h
    obtain ⟨pre, post, rfl, hpre⟩ := List.eq_append_cons_of_mem h
    rw [Index_single_append c pre post hpre]
    simp

theorem exists_last_occurrence (c : Nat) (s : GoString) (h : c ∈ s) :
    ∃ pre post, s = pre ++ c :: post ∧ c ∉ post := by
  have hr : c ∈ s.reverse := List.mem_reverse.mpr h
  obtain ⟨a, b, hab, ha⟩ := List.eq_append_cons_of_mem hr
  refine ⟨b.reverse, a.reverse, ?_, by simpa using ha⟩
  have := congrArg List.reverse hab
  simpa using this

theorem HasPrefix_iff (s pre : GoString) : HasPrefix s pre = true ↔ pre <+: s := by
  unfold HasPrefix
  exact List.isPrefixOf_iff_prefix

theorem adjustLight_ok (idx : Int) (mc : Oklch) (h : 0 ≤ idx) :
    ∃ c, adjustLight idx mc = .ok c ∧ c.C = mc.C ∧ c.H = mc.H ∧ c.Alpha = mc.Alpha := by
  have h1 : 0 ≤ Int.tmod idx 10 := Int.tmod_nonneg 10 h
  have h2 : Int.tmod idx 10 < 10 := Int.tmod_lt_of_pos idx (by norm_num)
  have hlen : (Int.tmod idx 10).toNat < offsets.length := by
    simp only [offsets, List.length_cons, List.length_nil]
    omega
  unfold adjustLight
  simp only [show ((offsets.length : ℕ) : ℤ) = 10 from rfl, not_lt.mpr h1, if_false,
    List.getElem?_eq_getElem hlen]
  exact ⟨_, rfl, rfl, rfl, rfl⟩

theorem takeWhile_ne_append (c : Nat) (pre post : GoString) (h : c ∉ pre) :
    (pre ++ c :: post).takeWhile (fun b => b ≠ c) = pre := by
  induction pre with
  | nil => simp
  | cons x xs ih =>
    have hx : x ≠ c := fun e => h (by simp [e])
    have hxs : c ∉ xs := fun e => h (by simp [e])
    have := ih hxs
    simp only [ne_eq, decide_not] at this
    simp [List.takeWhile_cons, hx, this]

theorem sliceTo_ok (s : GoString) (n : Nat) (h : n ≤ s.length) :
    sliceTo s (n : Int) = .ok (s.take n) := by
  unfold sliceTo
  rw [if_pos ⟨by omega, by exact_mod_cast h⟩]
  simp

theorem sliceFrom_ok (s : GoString) (n : Nat) (h : n ≤ s.length) :
    sliceFrom s (n : Int) = .ok (s.drop n) := by
  unfold sliceFrom
  rw [if_pos ⟨by omega, by exact_mod_cast h⟩]
  simp

/-- The value of `pkg` for a name with a '/' whose first '/' is not its first byte. -/
theorem pkgOf_ok (name : GoString) (hmain : ¬ lit "main." <+: name)
    (pre post : GoString) (hname : name = pre ++ 47 :: post) (hpost : 47 ∉ post)
    (hpre : pre ≠ []) :
    (∀ a b, post = a ++ 46 :: b → 46 ∉ a → pkgOf name = .ok (pre ++ 47 :: a)) ∧
    (46 ∉ post → pkgOf name = .ok pre.dropLast) := by
  have hm : HasPrefix name (lit "main.") = false := by
    rw [Bool.eq_false_iff]; intro h; exact hmain ((HasPrefix_iff _ _).mp h)
  have hlast : LastIndex name (lit "/") = (pre.length : Int) := by
    rw [lit_slash, hname]; exact LastIndex_single_append 47 pre post hpost
  have hlen : pre.length ≤ name.length := by rw [hname]; simp
  have htail : sliceFrom name (pre.length : Int) = .ok (47 :: post) := by
    rw [sliceFrom_ok name pre.length hlen, hname]; simp
  constructor
  · intro a b hab ha
    have hdot : Index (47 :: post) (lit ".") = ((a.length + 1 : ℕ) : Int) := by
      rw [lit_dot, hab]
      have := Index_single_append 46 (47 :: a) b (by simp [ha])
      simpa using this
    unfold pkgOf
    simp only [hm, hlast, Bool.false_eq_true, if_false, bind, Except.bind, htail, hdot]
    rw [show (pre.length : Int) + ((a.length + 1 : ℕ) : Int) = ((pre.length + (a.length + 1) : ℕ) : Int)
      by push_cast; ring]
    rw [sliceTo_ok _ _ (by rw [hname, hab]; simp), hname, hab]
    congr 1
    rw [show pre ++ 47 :: (a ++ 46 :: b) = (pre ++ 47 :: a) ++ (46 :: b) by simp]
    rw [List.take_left' (by simp)]
  · intro hno
    have hdot : Index (47 :: post) (lit ".") = -1 := by
      rw [lit_dot]; exact Index_single_not_mem 46 _ (by simp [hno])
    have hpos : 0 < pre.length := List.length_pos.mpr hpre
    unfold pkgOf
    simp only [hm, hlast, Bool.false_eq_true, if_false, bind, Except.bind, htail, hdot]
    rw [show (pre.length : Int) + -1 = ((pre.length - 1 : ℕ) : Int) by omega]
    rw [sliceTo_ok _ _ (by omega), hname]
    congr 1
    rw [List.take_append_of_le_length (by omega), List.dropLast_eq_take]

theorem hashColor_hue (pkg : GoString) :
    (hashColor pkg).H = 20 * ((fnv64 pkg % 18 : ℕ) : ℚ) := by
  have hb : (⌊f32 (f32 360.0 / f32 20)⌋).toNat % 2 ^ 64 = 18 := by decide!
  have hk : ∀ k, k < 18 → f32 (f32 20 * f32 ((k : ℕ) : ℚ)) = 20 * ((k : ℕ) : ℚ) := by decide!
  unfold hashColor
  simp only [hb]
  exact hk _ (Nat.mod_lt _ (by norm_num))

theorem runtimeCond_iff (name : GoString) :
    (HasPrefix name (lit "runtime.") || HasPrefix name (lit "runtime/") ||
      !Contains name (lit ".")) = true ↔ isRuntimeName name := by
  unfold isRuntimeName
  simp only [Bool.or_eq_true, Bool.not_eq_true', HasPrefix_iff]
  rw [lit_dot, ← Bool.not_eq_true, Contains_single]
  tauto

theorem provenanceColor_runtime (name : GoString) (h : isRuntimeName name) :
    provenanceColor name = .ok cRuntime := by
  unfold provenanceColor
  rw [if_pos ((runtimeCond_iff name).mpr h)]

theorem provenanceColor_main (name : GoString) (h : ¬ isRuntimeName name)
    (hm : isMainName name) : provenanceColor name = .ok cMain := by
  unfold provenanceColor
  rw [if_neg (fun hc => h ((runtimeCond_iff name).mp hc))]
  simp only []
  rw [if_pos ((HasPrefix_iff _ _).mpr hm)]

theorem provenanceColor_stdlib (name : GoString) (h : ¬ isRuntimeName name)
    (hm : ¬ isMainName name) (hs : isStdlibName name) :
    provenanceColor name = .ok cStdlib := by
  unfold provenanceColor
  rw [if_neg (fun hc => h ((runtimeCond_iff name).mp hc))]
  simp only []
  rw [if_neg (fun hc => hm ((HasPrefix_iff _ _).mp hc))]
  by_cases hsl : 47 ∈ name
  · obtain ⟨pre, post, hname, hpre⟩ := List.eq_append_cons_of_mem hsl
    have hdot : 46 ∉ pre := by
      rcases hs with hs | hs
      · exact absurd hsl hs
      · rwa [hname, takeWhile_ne_append 47 pre post hpre] at hs
    have hidx : Index name (lit "/") = (pre.length : Int) := by
      rw [lit_slash, hname]; exact Index_single_append 47 pre post hpre
    have hc : Contains pre (lit ".") = false := by
      rw [lit_dot, ← Bool.not_eq_true, Contains_single]; exact hdot
    rw [hidx, if_neg (by omega), sliceTo_ok name pre.length (by rw [hname]; simp), hname]
    simp [bind, Except.bind, hc]
  · have hidx : Index name (lit "/") = -1 := by
      rw [lit_slash]; exact Index_single_not_mem 47 name hsl
    rw [hidx, if_pos rfl]

theorem provenanceColor_hashed (name : GoString) (h : ¬ isRuntimeName name)
    (hm : ¬ isMainName name) (hs : ¬ isStdlibName name) :
    ∃ pkg, pkgOf name = .ok pkg ∧ provenanceColor name = .ok (hashColor pkg) := by
  unfold isStdlibName at hs
  push_neg at hs
  obtain ⟨hsl, hdot⟩ := hs
  obtain ⟨pre, post, hname, hpre⟩ := List.eq_append_cons_of_mem hsl
  rw [hname, takeWhile_ne_append 47 pre post hpre] at hdot
  have hidx : Index name (lit "/") = (pre.length : Int) := by
    rw [lit_slash, hname]; exact Index_single_append 47 pre post hpre
  have hc : Contains pre (lit ".") = true := by
    rw [lit_dot, Contains_single]; exact hdot
  obtain ⟨pre2, post2, hname2, hpost2⟩ := exists_last_occurrence 47 name hsl
  have hpre2 : pre2 ≠ [] := by
    intro he
    subst he
    rw [hname] at hname2
    cases pre with
    | nil => simp at hdot
    | cons x xs =>
      simp only [List.cons_append, List.nil_append, List.cons.injEq] at hname2
      exact hpre (by simp [hname2.1])
  have hpkg : ∃ pkg, pkgOf name = .ok pkg := by
    obtain ⟨h1, h2⟩ := pkgOf_ok name hm pre2 post2 hname2 hpost2 hpre2
    by_cases hd : 46 ∈ post2
    · obtain ⟨a, b, hab, ha⟩ := List.eq_append_cons_of_mem hd
      exact ⟨_, h1 a b hab ha⟩
    · exact ⟨_, h2 hd⟩
  obtain ⟨pkg, hpkg⟩ := hpkg
  refine ⟨pkg, hpkg, ?_⟩
  unfold provenanceColor
  rw [if_neg (fun hc => h ((runtimeCond_iff name).mp hc))]
  simp only []
  rw [if_neg (fun hc => hm ((HasPrefix_iff _ _).mp hc)), hidx, if_neg (by omega),
    sliceTo_ok name pre.length (by rw [hname]; simp), hname]
  rw [hname] at hpkg
  simp [bind, Except.bind, hc, hpkg]

theorem flameGraphColorFn_deep (level idx : Int) (f : FlamegraphFrame) (hl : level ≠ 0) :
    flameGraphColorFn level idx f false
      = (provenanceColor f.Name).bind (adjustLight idx) := by
  unfold flameGraphColorFn
  simp only [Bool.false_eq_true, if_false, hl]
  rfl

/-- Claim C7. Provenance classification of deeper frames: for a level above 0, a sibling
index that is not negative and `hovered = false`, a colour is returned; its hue and chroma
are those of `cRuntime` exactly when the name has no '.', or starts with "runtime." or
"runtime/"; otherwise those of `cMain` when the name starts with "main."; otherwise those
of `cStdlib` when the name has no '/' or no '.' before its first '/'; and in every
remaining case the hue is 20 times the FNV hash of `pkg` modulo 18, and the chroma is the
`float32` value of 0.103. -/
theorem provenance_classification (level idx : Int) (f : FlamegraphFrame)
    (hl : 0 < level) (hi : 0 ≤ idx) :
    ∃ c, flameGraphColorFn level idx f false = .ok c ∧
      ((c.H = cRuntime.H ∧ c.C = cRuntime.C) ↔ isRuntimeName f.Name) ∧
      (¬ isRuntimeName f.Name → isMainName f.Name → c.H = cMain.H ∧ c.C = cMain.C) ∧
      (¬ isRuntimeName f.Name → ¬ isMainName f.Name → isStdlibName f.Name →
        c.H = cStdlib.H ∧ c.C = cStdlib.C) ∧
      (¬ isRuntimeName f.Name → ¬ isMainName f.Name → ¬ isStdlibName f.Name →
        ∃ pkg, pkgOf f.Name = .ok pkg ∧
          c.H = 20 * ((fnv64 pkg % 18 : ℕ) : ℚ) ∧ c.C = f32 0.103) := by
  have hne : level ≠ 0 := ne_of_gt hl
  rw [flameGraphColorFn_deep level idx f hne]
  have e1 : cMain.C ≠ cRuntime.C := by decide!
  have e2 : cStdlib.C ≠ cRuntime.C := by decide!
  have e3 : f32 0.103 ≠ cRuntime.C := by decide!
  by_cases hr : isRuntimeName f.Name
  · obtain ⟨c, hc, hC, hH, _⟩ := adjustLight_ok idx cRuntime hi
    refine ⟨c, by rw [provenanceColor_runtime _ hr]; exact hc, ?_, ?_, ?_, ?_⟩
    · exact ⟨fun _ => hr, fun _ => ⟨hH, hC⟩⟩
    · intro h; exact absurd hr h
    · intro h; exact absurd hr h
    · intro h; exact absurd hr h
  · by_cases hm : isMainName f.Name
    · obtain ⟨c, hc, hC, hH, _⟩ := adjustLight_ok idx cMain hi
      refine ⟨c, by rw [provenanceColor_main _ hr hm]; exact hc, ?_, ?_, ?_, ?_⟩
      · exact ⟨fun h => absurd (hC ▸ h.2) e1, fun h => absurd h hr⟩
      · intro _ _; exact ⟨hH, hC⟩
      · intro _ h; exact absurd hm h
      · intro _ h; exact absurd hm h
    · by_cases hs : isStdlibName f.Name
      · obtain ⟨c, hc, hC, hH, _⟩ := adjustLight_ok idx cStdlib hi
        refine ⟨c, by rw [provenanceColor_stdlib _ hr hm hs]; exact hc, ?_, ?_, ?_, ?_⟩
        · exact ⟨fun h => absurd (hC ▸ h.2) e2, fun h => absurd h hr⟩
        · intro _ h; exact absurd h hm
        · intro _ _ _; exact ⟨hH, hC⟩
        · intro _ _ h; exact absurd hs h
      · obtain ⟨pkg, hpkg, hp⟩ := provenanceColor_hashed _ hr hm hs
        obtain ⟨c, hc, hC, hH, _⟩ := adjustLight_ok idx (hashColor pkg) hi
        have hCC : c.C = f32 0.103 := hC
        refine ⟨c, by rw [hp]; exact hc, ?_, ?_, ?_, ?_⟩
        · exact ⟨fun h => absurd (hCC ▸ h.2) e3, fun h => absurd h hr⟩
        · intro _ h; exact absurd h hm
        · intro _ _ h; exact absurd h hs
        · intro _ _ _
          exact ⟨pkg, hpkg, by rw [hH, hashColor_hue], hCC⟩

/-- Claim C7, witness: at level 1 the name "github.com/foo/bar.Baz" is in the hashed case,
its key is "github.com/foo/bar" and its hue is 160. -/
theorem provenance_classification_witness :
    ((0 : Int) < 1 ∧ (0 : Int) ≤ 3) ∧
    (∃ c, flameGraphColorFn 1 3 ⟨lit "github.com/foo/bar.Baz", 0⟩ false = .ok c ∧
      ((c.H = cRuntime.H ∧ c.C = cRuntime.C) ↔ isRuntimeName (lit "github.com/foo/bar.Baz")) ∧
      (¬ isRuntimeName (lit "github.com/foo/bar.Baz") →
        isMainName (lit "github.com/foo/bar.Baz") → c.H = cMain.H ∧ c.C = cMain.C) ∧
      (¬ isRuntimeName (lit "github.com/foo/bar.Baz") →
        ¬ isMainName (lit "github.com/foo/bar.Baz") →
        isStdlibName (lit "github.com/foo/bar.Baz") →
        c.H = cStdlib.H ∧ c.C = cStdlib.C) ∧
      (¬ isRuntimeName (lit "github.com/foo/bar.Baz") →
        ¬ isMainName (lit "github.com/foo/bar.Baz") →
        ¬ isStdlibName (lit "github.com/foo/bar.Baz") →
        ∃ pkg, pkgOf (lit "github.com/foo/bar.Baz") = .ok pkg ∧
          c.H = 20 * ((fnv64 pkg % 18 : ℕ) : ℚ) ∧ c.C = f32 0.103)) ∧
    (pkgOf (lit "github.com/foo/bar.Baz")).toOption = some (lit "github.com/foo/bar") ∧
    (flameGraphColorFn 1 3 ⟨lit "github.com/foo/bar.Baz", 0⟩ false).toOption.map
      (fun c => c.H) = some 160 :=
  ⟨⟨by decide, by decide⟩,
    provenance_classification 1 3 ⟨lit "github.com/foo/bar.Baz", 0⟩ (by decide) (by decide),
    by decide!, by decide!⟩

theorem lastSegment_of_not_mem (p : GoString) (h : 47 ∉ p) : lastSegment p = p := by
  unfold lastSegment
  have : p.reverse.takeWhile (fun b => b ≠ 47) = p.reverse := by
    rw [List.takeWhile_eq_self_iff]
    intro x hx
    have hx2 : x ∈ p := List.mem_reverse.mp hx
    have : x ≠ 47 := fun e => h (e ▸ hx2)
    simpa using this
  rw [this, List.reverse_reverse]

theorem lastSegment_append (pre post : GoString) (h : 47 ∉ post) :
    lastSegment (pre ++ 47 :: post) = post := by
  unfold lastSegment
  have hr : (pre ++ 47 :: post).reverse = post.reverse ++ 47 :: pre.reverse := by simp
  rw [hr, takeWhile_ne_append 47 _ _ (by simpa using h), List.reverse_reverse]

/-- The shape of a name with the import path `path`. -/
theorem isImportPathOf_shape (path name : GoString) (h : isImportPathOf path name) :
    ∃ sym, name = path ++ 46 :: sym ∧ 47 ∉ sym := by
  obtain ⟨⟨t, ht⟩, h2, _⟩ := h
  refine ⟨t, by rw [← ht]; simp, ?_⟩
  rw [← ht] at h2
  have : (path ++ [46] ++ t).drop (path.length + 1) = t := by
    rw [List.drop_left' (by simp)]
  rwa [this] at h2

/-- A pattern whose only '.' is its last byte is a prefix of a name with the import path
`path` exactly when it is a prefix of `path` followed by '.'. -/
theorem prefix_dot_iff (q : GoString) (c : Nat) (path sym : GoString) (hq : 46 ∉ q) :
    (q ++ [c]) <+: (path ++ 46 :: sym) ↔ (q ++ [c]) <+: (path ++ [46]) := by
  constructor
  · rintro ⟨t, ht⟩
    rcases List.append_eq_append_iff.mp ht with ⟨a, ha, _⟩ | ⟨b, hb, hb2⟩
    · exact ⟨a ++ [46], by rw [ha]; simp⟩
    · cases b with
      | nil => exact ⟨[46], by rw [hb]; simp⟩
      | cons x xs =>
        simp only [List.cons_append, List.cons.injEq] at hb2
        obtain ⟨hx, _⟩ := hb2
        subst hx
        cases xs with
        | nil => exact ⟨[], by rw [hb]; simp⟩
        | cons y ys =>
          exfalso
          apply hq
          have h1 : q ++ [c] = (path ++ 46 :: (y :: ys).dropLast) ++ [(y :: ys).getLast (by simp)] := by
            rw [hb, List.append_assoc, List.cons_append, List.dropLast_append_getLast]
          have h2 := List.append_inj_left' h1 (by simp)
          rw [h2]
          simp
  · intro h
    exact h.trans ⟨sym, by simp⟩

theorem isImportPathOf_canonical (path name : GoString) (h : isImportPathOf path name) :
    isImportPathOf path (path ++ [46]) := by
  refine ⟨List.prefix_refl _, ?_, h.2.2⟩
  rw [List.drop_of_length_le (by simp)]
  simp

theorem mem_of_isImportPathOf (path name : GoString) (h : isImportPathOf path name) :
    46 ∈ name := by
  obtain ⟨sym, hs, _⟩ := isImportPathOf_shape path name h
  rw [hs]; simp

theorem lit_runtime_dot : lit "runtime." = lit "runtime" ++ [46] := by decide!
theorem lit_runtime_slash : lit "runtime/" = lit "runtime" ++ [47] := by decide!
theorem lit_main_dot : lit "main." = lit "main" ++ [46] := by decide!
theorem lit_runtime_no_dot : 46 ∉ lit "runtime" := by decide!
theorem lit_main_no_dot : 46 ∉ lit "main" := by decide!

theorem isRuntimeName_path (path name : GoString) (h : isImportPathOf path name) :
    isRuntimeName name ↔ isRuntimeName (path ++ [46]) := by
  obtain ⟨sym, hs, _⟩ := isImportPathOf_shape path name h
  unfold isRuntimeName
  rw [hs, lit_runtime_dot, lit_runtime_slash,
    prefix_dot_iff _ 46 path sym lit_runtime_no_dot,
    prefix_dot_iff _ 47 path sym lit_runtime_no_dot]
  simp

theorem isMainName_path (path name : GoString) (h : isImportPathOf path name) :
    isMainName name ↔ isMainName (path ++ [46]) := by
  obtain ⟨sym, hs, _⟩ := isImportPathOf_shape path name h
  unfold isMainName
  rw [hs, lit_main_dot, prefix_dot_iff _ 46 path sym lit_main_no_dot]

theorem isStdlibName_path (path name : GoString) (h : isImportPathOf path name) :
    isStdlibName name ↔ isStdlibName (path ++ [46]) := by
  obtain ⟨sym, hs, hsym⟩ := isImportPathOf_shape path name h
  unfold isStdlibName
  rw [hs]
  by_cases hp : 47 ∈ path
  · obtain ⟨pre, post, hpath, hpre⟩ := List.eq_append_cons_of_mem hp
    have e1 : path ++ 46 :: sym = pre ++ 47 :: (post ++ 46 :: sym) := by rw [hpath]; simp
    have e2 : path ++ [46] = pre ++ 47 :: (post ++ [46]) := by rw [hpath]; simp
    rw [e1, e2, takeWhile_ne_append 47 _ _ hpre, takeWhile_ne_append 47 _ _ hpre]
    simp
  · have a1 : 47 ∉ path ++ 46 :: sym := by simp [hp, hsym]
    have a2 : 47 ∉ path ++ [46] := by simp [hp]
    simp only [a1, a2, not_false_eq_true, true_or]

theorem pkgOf_of_path (path name : GoString) (h : isImportPathOf path name)
    (hm : ¬ isMainName name) (hstd : ¬ isStdlibName name) : pkgOf name = .ok path := by
  obtain ⟨sym, hs, hsym⟩ := isImportPathOf_shape path name h
  unfold isStdlibName at hstd
  push_neg at hstd
  obtain ⟨hsl, hdot⟩ := hstd
  have hp : 47 ∈ path := by
    rw [hs] at hsl
    simp only [List.mem_append, List.mem_cons] at hsl
    rcases hsl with h1 | h1 | h1
    · exact h1
    · exact absurd h1 (by decide)
    · exact absurd h1 hsym
  obtain ⟨p2, seg, hpath, hseg⟩ := exists_last_occurrence 47 path hp
  have hsegdot : 46 ∉ seg := by
    have := h.2.2
    rwa [hpath, lastSegment_append p2 seg hseg] at this
  have hp2 : p2 ≠ [] := by
    intro he
    rw [hs, hpath, he] at hdot
    simp at hdot
  have hname : name = p2 ++ 47 :: (seg ++ 46 :: sym) := by rw [hs, hpath]; simp
  have hpost : 47 ∉ seg ++ 46 :: sym := by simp [hseg, hsym]
  have := (pkgOf_ok name hm p2 (seg ++ 46 :: sym) hname hpost hp2).1 seg sym rfl hsegdot
  rw [this, hpath]

/-- The provenance colour of a name is that of its import path. -/
theorem provenanceColor_path (path name : GoString) (h : isImportPathOf path name) :
    provenanceColor name = provenanceColor (path ++ [46]) := by
  have h0 := isImportPathOf_canonical path name h
  by_cases hr : isRuntimeName name
  · rw [provenanceColor_runtime _ hr,
      provenanceColor_runtime _ ((isRuntimeName_path path name h).mp hr)]
  · have hr0 := fun hc => hr ((isRuntimeName_path path name h).mpr hc)
    by_cases hm : isMainName name
    · rw [provenanceColor_main _ hr hm,
        provenanceColor_main _ hr0 ((isMainName_path path name h).mp hm)]
    · have hm0 := fun hc => hm ((isMainName_path path name h).mpr hc)
      by_cases hs : isStdlibName name
      · rw [provenanceColor_stdlib _ hr hm hs,
          provenanceColor_stdlib _ hr0 hm0 ((isStdlibName_path path name h).mp hs)]
      · have hs0 := fun hc => hs ((isStdlibName_path path name h).mpr hc)
        obtain ⟨pkg, hpkg, hc⟩ := provenanceColor_hashed _ hr hm hs
        obtain ⟨pkg0, hpkg0, hc0⟩ := provenanceColor_hashed _ hr0 hm0 hs0
        rw [pkgOf_of_path path name h hm hs] at hpkg
        rw [pkgOf_of_path path _ h0 hm0 hs0] at hpkg0
        cases hpkg
        cases hpkg0
        rw [hc, hc0]

theorem rootColor_eq_none (name : GoString) (h : name ∉ rootLabels) : rootColor name = none := by
  unfold rootLabels at h
  simp only [List.mem_cons, List.mem_singleton, not_or, List.not_mem_nil, not_false_eq_true,
    and_true] at h
  unfold rootColor
  simp [h]

theorem rootColor_of_dotted_label :
    ∀ name ∈ rootLabels, 46 ∈ name →
      rootColor name = some .colorStateBlockedHappensBefore := by
  decide!

/-- Claim C9, counterexample. At level 0 the names "sync.Once" and "sync.Mutex" of the
package "sync" get different hues for the same sibling index: the first is a root
category label, the second is coloured as a name of the standard library. -/
theorem same_package_different_colour_at_root :
    isImportPathOf (lit "sync") (lit "sync.Once") ∧
    isImportPathOf (lit "sync") (lit "sync.Mutex") ∧
    (flameGraphColorFn 0 0 ⟨lit "sync.Once", 0⟩ false).toOption.map (fun c => c.H)
      = some (f32 23.89) ∧
    (flameGraphColorFn 0 0 ⟨lit "sync.Mutex", 0⟩ false).toOption.map (fun c => c.H)
      = some (f32 77.9481021312874) ∧
    f32 23.89 ≠ f32 77.9481021312874 := by
  unfold isImportPathOf
  decide!

/-- Claim C9, amended. For two calls with `hovered = false`, the same level and the same
sibling index, whose frame names belong to the same package, and, at level 0, whose names
are both root category labels or both not, the results are identical (in particular the
hue); the result does not depend on the duration of the frame. -/
theorem same_package_same_colour (level idx : Int) (path n1 n2 : GoString) (d1 d2 : Int)
    (h1 : isImportPathOf path n1) (h2 : isImportPathOf path n2)
    (h0 : level = 0 → (n1 ∈ rootLabels ↔ n2 ∈ rootLabels)) :
    flameGraphColorFn level idx ⟨n1, d1⟩ false = flameGraphColorFn level idx ⟨n2, d2⟩ false ∧
    ∀ hovered, flameGraphColorFn level idx ⟨n1, d1⟩ hovered
      = flameGraphColorFn level idx ⟨n1, d2⟩ hovered := by
  refine ⟨?_, fun _ => rfl⟩
  have hp : provenanceColor n1 = provenanceColor n2 := by
    rw [provenanceColor_path path n1 h1, provenanceColor_path path n2 h2]
  by_cases hl : level = 0
  · by_cases hlab : n1 ∈ rootLabels
    · have hlab2 := (h0 hl).mp hlab
      have c1 := rootColor_of_dotted_label n1 hlab (mem_of_isImportPathOf path n1 h1)
      have c2 := rootColor_of_dotted_label n2 hlab2 (mem_of_isImportPathOf path n2 h2)
      unfold flameGraphColorFn
      simp only [Bool.false_eq_true, if_false, hl, if_true, c1, c2]
    · have hlab2 : n2 ∉ rootLabels := fun hc => hlab ((h0 hl).mpr hc)
      unfold flameGraphColorFn
      simp only [Bool.false_eq_true, if_false, hl, if_true, rootColor_eq_none n1 hlab,
        rootColor_eq_none n2 hlab2, hp]
  · rw [flameGraphColorFn_deep level idx _ hl, flameGraphColorFn_deep level idx _ hl]
    exact congrArg (fun x => Except.bind x (adjustLight idx)) hp

/-- Claim C9, witness: a function and a method of the package "example.com/a/b" get the
same colour at level 2. -/
theorem same_package_same_colour_witness :
    (isImportPathOf (lit "example.com/a/b") (lit "example.com/a/b.F") ∧
      isImportPathOf (lit "example.com/a/b") (lit "example.com/a/b.(*T).M") ∧
      ((2 : Int) = 0 →
        (lit "example.com/a/b.F" ∈ rootLabels ↔ lit "example.com/a/b.(*T).M" ∈ rootLabels))) ∧
    (flameGraphColorFn 2 5 ⟨lit "example.com/a/b.F", 3⟩ false
        = flameGraphColorFn 2 5 ⟨lit "example.com/a/b.(*T).M", 8⟩ false ∧
      ∀ hovered, flameGraphColorFn 2 5 ⟨lit "example.com/a/b.F", 3⟩ hovered
        = flameGraphColorFn 2 5 ⟨lit "example.com/a/b.F", 8⟩ hovered) :=
  ⟨⟨by unfold isImportPathOf; decide!, by unfold isImportPathOf; decide!, by decide⟩,
    same_package_same_colour 2 5 (lit "example.com/a/b") (lit "example.com/a/b.F")
      (lit "example.com/a/b.(*T).M") 3 8 (by unfold isImportPathOf; decide!)
      (by unfold isImportPathOf; decide!) (by decide)⟩

theorem colouredFromTable_of_rootColor (idx : Int) (hi : 0 ≤ idx) (name : GoString)
    (ci : colorIndex) (h : rootColor name = some ci) : ColouredFromTable idx name ci := by
  intro d
  obtain ⟨c, hc, hC, hH, hA⟩ := adjustLight_ok idx (colorsOklch ci) hi
  refine ⟨c, ?_, hc, hH, hC, hA⟩
  unfold flameGraphColorFn
  simp only [Bool.false_eq_true, if_false, if_true, h]
  exact hc

/-- Claim C8, the code at the failing input. The name "example.com/pkg" reaches the hashed
branch and has no '.' after its last '/'; the hashed key is "example.co", which is not
the import path of the name: `strings.Index` returns -1 and the slice bound `last + dot`
drops the byte before the last '/'. -/
theorem hashed_key_without_symbol_dot :
    ¬ isRuntimeName (lit "example.com/pkg") ∧ ¬ isMainName (lit "example.com/pkg") ∧
    ¬ isStdlibName (lit "example.com/pkg") ∧
    46 ∉ lastSegment (lit "example.com/pkg") ∧
    (pkgOf (lit "example.com/pkg")).toOption = some (lit "example.co") ∧
    (flameGraphColorFn 1 0 ⟨lit "example.com/pkg", 0⟩ false).toOption.map (fun c => c.H)
      = some (20 * ((fnv64 (lit "example.co") % 18 : ℕ) : ℚ)) := by
  unfold isRuntimeName isMainName isStdlibName
  decide!

/-- Claim C10. Root-category colour table: at level 0, with `hovered = false` and a sibling
index that is not negative, each root category label is coloured from its entry of
`colorsOklch` with only the lightness adjusted: hue, chroma and alpha are those of the
entry. The provenance rules are not applied: "sync.Once", which they would colour as a
name of the standard library, gets the hue of the happens-before entry. -/
theorem root_category_colours (idx : Int) (hi : 0 ≤ idx) :
    ColouredFromTable idx (lit "Running") .colorStateActive ∧
    ColouredFromTable idx (lit "blocked") .colorStateBlocked ∧
    ColouredFromTable idx (lit "send") .colorStateBlockedHappensBefore ∧
    ColouredFromTable idx (lit "recv") .colorStateBlockedHappensBefore ∧
    ColouredFromTable idx (lit "select") .colorStateBlockedHappensBefore ∧
    ColouredFromTable idx (lit "sync") .colorStateBlockedHappensBefore ∧
    ColouredFromTable idx (lit "sync.Once") .colorStateBlockedHappensBefore ∧
    ColouredFromTable idx (lit "sync.Cond") .colorStateBlockedHappensBefore ∧
    ColouredFromTable idx (lit "GC") .colorStateBlockedGC ∧
    ColouredFromTable idx (lit "triggering GC") .colorStateBlockedGC ∧
    ColouredFromTable idx (lit "I/O") .colorStateBlockedNet ∧
    ColouredFromTable idx (lit "blocking syscall") .colorStateBlockedSyscall ∧
    ColouredFromTable idx (lit "ready") .colorStateReady ∧
    (provenanceColor (lit "sync.Once")).toOption = some cStdlib ∧
    (colorsOklch .colorStateBlockedHappensBefore).H ≠ cStdlib.H := by
  refine ⟨?_, ?_, ?_, ?_, ?_, ?_, ?_, ?_, ?_, ?_, ?_, ?_, ?_, ?_, ?_⟩
  · exact colouredFromTable_of_rootColor idx hi _ _ (by decide!)
  · exact colouredFromTable_of_rootColor idx hi _ _ (by decide!)
  · exact colouredFromTable_of_rootColor idx hi _ _ (by decide!)
  · exact colouredFromTable_of_rootColor idx hi _ _ (by decide!)
  · exact colouredFromTable_of_rootColor idx hi _ _ (by decide!)
  · exact colouredFromTable_of_rootColor idx hi _ _ (by decide!)
  · exact colouredFromTable_of_rootColor idx hi _ _ (by decide!)
  · exact colouredFromTable_of_rootColor idx hi _ _ (by decide!)
  · exact colouredFromTable_of_rootColor idx hi _ _ (by decide!)
  · exact colouredFromTable_of_rootColor idx hi _ _ (by decide!)
  · exact colouredFromTable_of_rootColor idx hi _ _ (by decide!)
  · exact colouredFromTable_of_rootColor idx hi _ _ (by decide!)
  · exact colouredFromTable_of_rootColor idx hi _ _ (by decide!)
  · decide!
  · decide!

/-- Claim C10, witness: the table at the sibling index 7; the frame "Running" gets the hue
of the active state, the `float32` value of 143.74. -/
theorem root_category_colours_witness :
    (0 : Int) ≤ 7 ∧
    (ColouredFromTable 7 (lit "Running") .colorStateActive ∧
      ColouredFromTable 7 (lit "blocked") .colorStateBlocked ∧
      ColouredFromTable 7 (lit "send") .colorStateBlockedHappensBefore ∧
      ColouredFromTable 7 (lit "recv") .colorStateBlockedHappensBefore ∧
      ColouredFromTable 7 (lit "select") .colorStateBlockedHappensBefore ∧
      ColouredFromTable 7 (lit "sync") .colorStateBlockedHappensBefore ∧
      ColouredFromTable 7 (lit "sync.Once") .colorStateBlockedHappensBefore ∧
      ColouredFromTable 7 (lit "sync.Cond") .colorStateBlockedHappensBefore ∧
      ColouredFromTable 7 (lit "GC") .colorStateBlockedGC ∧
      ColouredFromTable 7 (lit "triggering GC") .colorStateBlockedGC ∧
      ColouredFromTable 7 (lit "I/O") .colorStateBlockedNet ∧
      ColouredFromTable 7 (lit "blocking syscall") .colorStateBlockedSyscall ∧
      ColouredFromTable 7 (lit "ready") .colorStateReady ∧
      (provenanceColor (lit "sync.Once")).toOption = some cStdlib ∧
      (colorsOklch .colorStateBlockedHappensBefore).H ≠ cStdlib.H) ∧
    (flameGraphColorFn 0 7 ⟨lit "Running", 0⟩ false).toOption.map (fun c => c.H)
      = some (f32 143.74) :=
  ⟨by decide, root_category_colours 7 (by decide), by decide!⟩

/-- The hashed branch on a name with an import path (a '.' follows the last '/'): the
hashed key is the import path, the hue is 20 times the hash modulo 18, the chroma is the
`float32` value of 0.103 and the lightness before the adjustment that of 0.699. -/
theorem hashed_colour_of_import_path (path name : GoString) (h : isImportPathOf path name)
    (hr : ¬ isRuntimeName name) (hm : ¬ isMainName name) (hs : ¬ isStdlibName name) :
    pkgOf name = .ok path ∧ provenanceColor name = .ok (hashColor path) ∧
    (hashColor path).H = 20 * ((fnv64 path % 18 : ℕ) : ℚ) ∧
    (hashColor path).C = f32 0.103 ∧ (hashColor path).L = f32 0.699 := by
  have hp := pkgOf_of_path path name h hm hs
  obtain ⟨pkg, hpkg, hc⟩ := provenanceColor_hashed name hr hm hs
  rw [hp] at hpkg
  cases hpkg
  exact ⟨hp, hc, hashColor_hue path, rfl, rfl⟩

theorem provenanceColor_total (name : GoString) : ∃ c, provenanceColor name = .ok c := by
  by_cases hr : isRuntimeName name
  · exact ⟨_, provenanceColor_runtime name hr⟩
  · by_cases hm : isMainName name
    · exact ⟨_, provenanceColor_main name hr hm⟩
    · by_cases hs : isStdlibName name
      · exact ⟨_, provenanceColor_stdlib name hr hm hs⟩
      · obtain ⟨pkg, _, h⟩ := provenanceColor_hashed name hr hm hs
        exact ⟨_, h⟩

theorem flameGraphColorFn_unlabelled (idx : Int) (f : FlamegraphFrame)
    (h : f.Name ∉ rootLabels) :
    flameGraphColorFn 0 idx f false = (provenanceColor f.Name).bind (adjustLight idx) := by
  unfold flameGraphColorFn
  simp only [Bool.false_eq_true, if_false, if_true, rootColor_eq_none f.Name h]
  rfl

/-- Claim C11, counterexample. At level 0 the name "unknown" is not a root category label,
and `flameGraphColorFn` returns a colour for it, with the chroma and hue of `cRuntime` (the
name has no '.'): it does not fail. -/
theorem unknown_root_label_gets_colour :
    lit "unknown" ∉ rootLabels ∧
    (flameGraphColorFn 0 0 ⟨lit "unknown", 0⟩ false).toOption.map (fun c => (c.C, c.H))
      = some (cRuntime.C, cRuntime.H) := by
  decide!

/-- Claim C11, amended. At level 0, with `hovered = false` and a sibling index that is not
negative, a frame whose name is not a root category label is coloured by the provenance
rules, as at the deeper levels: `flameGraphColorFn` returns the provenance colour of the
name with its lightness adjusted, and does not fail. -/
theorem unknown_root_label_by_provenance (idx : Int) (f : FlamegraphFrame)
    (hi : 0 ≤ idx) (h : f.Name ∉ rootLabels) :
    ∃ base c, provenanceColor f.Name = .ok base ∧ flameGraphColorFn 0 idx f false = .ok c ∧
      adjustLight idx base = .ok c ∧ c.H = base.H ∧ c.C = base.C ∧ c.Alpha = base.Alpha := by
  obtain ⟨base, hb⟩ := provenanceColor_total f.Name
  obtain ⟨c, hc, hC, hH, hA⟩ := adjustLight_ok idx base hi
  refine ⟨base, c, hb, ?_, hc, hH, hC, hA⟩
  rw [flameGraphColorFn_unlabelled idx f h, hb]
  exact hc

/-- Claim C11, witness: at level 0 the frame "main.main" gets the hue of `cMain`. -/
theorem unknown_root_label_by_provenance_witness :
    ((0 : Int) ≤ 4 ∧ (⟨lit "main.main", 9⟩ : FlamegraphFrame).Name ∉ rootLabels) ∧
    (∃ base c, provenanceColor (⟨lit "main.main", 9⟩ : FlamegraphFrame).Name = .ok base ∧
      flameGraphColorFn 0 4 ⟨lit "main.main", 9⟩ false = .ok c ∧
      adjustLight 4 base = .ok c ∧ c.H = base.H ∧ c.C = base.C ∧ c.Alpha = base.Alpha) ∧
    (flameGraphColorFn 0 4 ⟨lit "main.main", 9⟩ false).toOption.map (fun c => c.H)
      = some cMain.H :=
  ⟨⟨by decide, by decide!⟩,
    unknown_root_label_by_provenance 4 ⟨lit "main.main", 9⟩ (by decide) (by decide!),
    by decide!⟩

/-- Claim C12. Hover override: for every level, every sibling index (negative ones among
them) and every frame, `flameGraphColorFn` with `hovered = true` returns the one colour with
the `float32` values of L = 0.94, C = 0.222, H = 119 and Alpha = 1; the lightness is not
adjusted. -/
theorem hover_override (level idx : Int) (f : FlamegraphFrame) :
    flameGraphColorFn level idx f true = .ok ⟨f32 0.94, f32 0.222, f32 119, f32 1⟩ ∧
    f32 119 = 119 ∧ f32 1 = 1 := by
  refine ⟨by simp [flameGraphColorFn], by decide!, by decide!⟩

theorem rootColor_of_spanRoot (s : SchedulingState) (root : GoString)
    (h : spanRoot s = .ok root) (hne : root ≠ []) : root ∈ rootLabels := by
  cases s <;> simp only [spanRoot] at h <;> first
    | (cases h; first | decide! | exact absurd rfl hne)
    | (exact absurd h (by simp))

theorem eq_ok_of_toOption {ε α : Type} (x : Except ε α) (a : α)
    (h : x.toOption = some a) : x = .ok a := by
  cases x with
  | error e => simp [Except.toOption] at h
  | ok b =>
    simp only [Except.toOption, Option.some.injEq] at h
    rw [h]

theorem spanStep_roots (t : Trace) (span : Span) (fg fg1 : List AddSampleCall)
    (h : spanStep t span fg = .ok fg1) :
    ∃ rest, fg1 = fg ++ rest ∧ ∀ c ∈ rest, c.root ∈ rootLabels := by
  unfold spanStep at h
  cases hr : spanRoot span.State with
  | error e => rw [hr] at h; cases h
  | ok root =>
    rw [hr] at h
    simp only [Except.ok.injEq] at h
    subst h
    unfold addSpanSample
    by_cases h0 : root = []
    · exact ⟨[], by simp [h0], by simp⟩
    · refine ⟨[_], by simp only [h0, ne_eq, not_false_eq_true, if_true]; rfl, ?_⟩
      intro c hc
      simp only [List.mem_singleton] at hc
      subst hc
      exact rootColor_of_spanRoot _ _ hr h0

theorem spansLoop_roots (t : Trace) (spans : List Span) :
    ∀ (fg calls : List AddSampleCall), spansLoop t spans fg = .ok calls →
      ∃ rest, calls = fg ++ rest ∧ ∀ c ∈ rest, c.root ∈ rootLabels := by
  induction spans with
  | nil =>
    intro fg calls h
    simp only [spansLoop, Except.ok.injEq] at h
    exact ⟨[], by simp [h], by simp⟩
  | cons span rest ih =>
    intro fg calls h
    rw [spansLoop] at h
    cases hs : spanStep t span fg with
    | error e => rw [hs] at h; cases h
    | ok fg1 =>
      rw [hs] at h
      obtain ⟨r1, h1, hr1⟩ := spanStep_roots t span fg fg1 hs
      obtain ⟨r2, h2, hr2⟩ := ih fg1 calls h
      refine ⟨r1 ++ r2, by rw [h2, h1, List.append_assoc], ?_⟩
      intro c hc
      rcases List.mem_append.mp hc with hc | hc
      · exact hr1 c hc
      · exact hr2 c hc

theorem rootColor_of_label : ∀ name ∈ rootLabels, (rootColor name).isSome = true := by
  decide!

/-- Claim C17. Extractor and colour table agree on the category labels: the root of every
sample that the extractor adds, in the whole-trace view and in the view of a goroutine, is
a label of the switch of `flameGraphColorFn`, so that at level 0 the root node is coloured
from its entry of `colorsOklch` and not by the provenance rules. -/
theorem extractor_labels_recognised (indef : Int → Nat → Int) (t : Trace)
    (g : Option Goroutine) (calls : List AddSampleCall)
    (h : buildFlameGraph indef t g = .ok calls) :
    ∀ c ∈ calls, c.root ∈ rootLabels ∧
      ∃ ci, rootColor c.root = some ci ∧
        ∀ (idx d : Int),
          flameGraphColorFn 0 idx ⟨c.root, d⟩ false = adjustLight idx (colorsOklch ci) := by
  have hrun : lit "Running" ∈ rootLabels := by decide!
  have hroots : ∀ c ∈ calls, c.root ∈ rootLabels := by
    have hcpu : ∀ (l : List Nat), ∀ c ∈ l.map (runningCall t (sampleDuration indef t)),
        c.root ∈ rootLabels := by
      intro l c hc
      obtain ⟨s, _, rfl⟩ := List.mem_map.mp hc
      exact hrun
    cases g with
    | none =>
      simp only [buildFlameGraph, rangeSamples_eq, List.nil_append, Except.ok.injEq] at h
      subst h
      exact hcpu _
    | some g =>
      simp only [buildFlameGraph, doSamples_eq, List.nil_append] at h
      obtain ⟨rest, hrest, hlab⟩ := spansLoop_roots t g.Spans _ calls h
      subst hrest
      intro c hc
      rcases List.mem_append.mp hc with hc | hc
      · exact hcpu _ c hc
      · exact hlab c hc
  intro c hc
  refine ⟨hroots c hc, ?_⟩
  have hsome := rootColor_of_label c.root (hroots c hc)
  obtain ⟨ci, hci⟩ := Option.isSome_iff_exists.mp hsome
  refine ⟨ci, hci, ?_⟩
  intro idx d
  unfold flameGraphColorFn
  simp only [Bool.false_eq_true, if_false, if_true, hci]

/-- Claim C17, witness: the view of a goroutine with one CPU sample and a span blocked on
the network adds the roots "Running" and "I/O". -/
theorem extractor_labels_recognised_witness :
    (buildFlameGraph (fun _ _ => 0) smallTrace (some ⟨2, [⟨StateBlockedNet, 12, 7⟩]⟩)
      = .ok [⟨[⟨[107], 500⟩], lit "Running"⟩, ⟨[⟨[107], 7⟩], lit "I/O"⟩]) ∧
    (∀ c ∈ [(⟨[⟨[107], 500⟩], lit "Running"⟩ : AddSampleCall), ⟨[⟨[107], 7⟩], lit "I/O"⟩],
      c.root ∈ rootLabels ∧
      ∃ ci, rootColor c.root = some ci ∧
        ∀ (idx d : Int),
          flameGraphColorFn 0 idx ⟨c.root, d⟩ false = adjustLight idx (colorsOklch ci)) :=
  ⟨eq_ok_of_toOption _ _ (by decide!),
    extractor_labels_recognised (fun _ _ => 0) smallTrace
      (some ⟨2, [⟨StateBlockedNet, 12, 7⟩]⟩) _ (eq_ok_of_toOption _ _ (by decide!))⟩

/-- The slice bound of the hashed branch: for a name with a '/' whose first '/' is not its
first byte, `last + dot` lies between 0 and the length of the name. -/
theorem slice_bound_ok (name pre post : GoString) (hname : name = pre ++ 47 :: post)
    (hpost : 47 ∉ post) (hpre : pre ≠ []) :
    ∃ tail, sliceFrom name (LastIndex name (lit "/")) = .ok tail ∧
      0 ≤ LastIndex name (lit "/") + Index tail (lit ".") ∧
      LastIndex name (lit "/") + Index tail (lit ".") ≤ (name.length : Int) := by
  have hlast : LastIndex name (lit "/") = (pre.length : Int) := by
    rw [lit_slash, hname]; exact LastIndex_single_append 47 pre post hpost
  have hlen : pre.length ≤ name.length := by rw [hname]; simp
  have htail : sliceFrom name (pre.length : Int) = .ok (47 :: post) := by
    rw [sliceFrom_ok name pre.length hlen, hname]; simp
  have hpos : 0 < pre.length := List.length_pos.mpr hpre
  have hnl : (name.length : Int) = (pre.length : Int) + 1 + (post.length : Int) := by
    rw [hname]; simp; ring
  refine ⟨47 :: post, by rw [hlast]; exact htail, ?_⟩
  rw [hlast]
  by_cases hd : 46 ∈ post
  · obtain ⟨a, b, hab, ha⟩ := List.eq_append_cons_of_mem hd
    have hdot : Index (47 :: post) (lit ".") = ((a.length + 1 : ℕ) : Int) := by
      rw [lit_dot, hab]
      have := Index_single_append 46 (47 :: a) b (by simp [ha])
      simpa using this
    have hpl : (post.length : Int) = (a.length : Int) + 1 + (b.length : Int) := by
      rw [hab]; simp; ring
    rw [hdot, hnl, hpl]
    push_cast
    constructor <;> omega
  · have hdot : Index (47 :: post) (lit ".") = -1 := by
      rw [lit_dot]; exact Index_single_not_mem 46 _ (by simp [hd])
    rw [hdot, hnl]
    constructor <;> omega

/-- Claim C18. `flameGraphColorFn` is total for a sibling index that is not negative: for
every name, level and value of `hovered` it returns a colour; the index `idx % 10` lies
within the table `offsets`, and in the hashed branch the slice `f.Name[last:]` is in range
and the bound `last + dot` lies between 0 and the length of the name. -/
theorem flameGraphColorFn_total (level idx : Int) (f : FlamegraphFrame) (hovered : Bool)
    (hi : 0 ≤ idx) :
    (∃ c, flameGraphColorFn level idx f hovered = .ok c) ∧
    (0 ≤ Int.tmod idx 10 ∧ Int.tmod idx 10 < (offsets.length : Int)) ∧
    (¬ isRuntimeName f.Name → ¬ isMainName f.Name → ¬ isStdlibName f.Name →
      ∃ tail, sliceFrom f.Name (LastIndex f.Name (lit "/")) = .ok tail ∧
        0 ≤ LastIndex f.Name (lit "/") + Index tail (lit ".") ∧
        LastIndex f.Name (lit "/") + Index tail (lit ".") ≤ (f.Name.length : Int)) := by
  refine ⟨?_, ⟨Int.tmod_nonneg 10 hi, Int.tmod_lt_of_pos idx (by norm_num)⟩, ?_⟩
  · cases hovered with
    | true => exact ⟨⟨f32 0.94, f32 0.222, f32 119, f32 1⟩, by simp [flameGraphColorFn]⟩
    | false =>
      unfold flameGraphColorFn
      simp only [Bool.false_eq_true, if_false]
      cases hrc : (if level = 0 then rootColor f.Name else none) with
      | some ci =>
        obtain ⟨c, hc, _⟩ := adjustLight_ok idx (colorsOklch ci) hi
        exact ⟨c, hc⟩
      | none =>
        obtain ⟨base, hb⟩ := provenanceColor_total f.Name
        obtain ⟨c, hc, _⟩ := adjustLight_ok idx base hi
        refine ⟨c, ?_⟩
        simp only [hb, bind, Except.bind]
        exact hc
  · intro _ _ hs
    unfold isStdlibName at hs
    push_neg at hs
    obtain ⟨hsl, hdot⟩ := hs
    obtain ⟨pre, post, hname, hpre⟩ := List.eq_append_cons_of_mem hsl
    rw [hname, takeWhile_ne_append 47 pre post hpre] at hdot
    obtain ⟨pre2, post2, hname2, hpost2⟩ := exists_last_occurrence 47 f.Name hsl
    have hpre2 : pre2 ≠ [] := by
      intro he
      subst he
      rw [hname] at hname2
      cases pre with
      | nil => simp at hdot
      | cons x xs =>
        simp only [List.cons_append, List.nil_append, List.cons.injEq] at hname2
        exact hpre (by simp [hname2.1])
    exact slice_bound_ok f.Name pre2 post2 hname2 hpost2 hpre2

/-- Claim C18, witness: the empty name, a name that ends in '/' and a name with no '.'
after its last '/' get a colour at the sibling index 13. -/
theorem flameGraphColorFn_total_witness :
    (0 : Int) ≤ 13 ∧
    ((∃ c, flameGraphColorFn 1 13 ⟨lit "a.b/c", 0⟩ false = .ok c) ∧
      (0 ≤ Int.tmod 13 10 ∧ Int.tmod 13 10 < (offsets.length : Int)) ∧
      (¬ isRuntimeName (lit "a.b/c") → ¬ isMainName (lit "a.b/c") →
        ¬ isStdlibName (lit "a.b/c") →
        ∃ tail, sliceFrom (lit "a.b/c") (LastIndex (lit "a.b/c") (lit "/")) = .ok tail ∧
          0 ≤ LastIndex (lit "a.b/c") (lit "/") + Index tail (lit ".") ∧
          LastIndex (lit "a.b/c") (lit "/") + Index tail (lit ".")
            ≤ ((lit "a.b/c").length : Int))) ∧
    (flameGraphColorFn 1 13 ⟨lit "", 0⟩ false).toOption.isSome = true ∧
    (flameGraphColorFn 1 13 ⟨lit "a.b/", 0⟩ false).toOption.isSome = true ∧
    (flameGraphColorFn 0 13 ⟨lit "a.b/c", 0⟩ false).toOption.isSome = true ∧
    (pkgOf (lit "a.b/c")).toOption = some (lit "a.") :=
  ⟨by decide, flameGraphColorFn_total 1 13 ⟨lit "a.b/c", 0⟩ false (by decide),
    by decide!, by decide!, by decide!, by decide!⟩

theorem adjustLight_eq (idx : Int) (mc : Oklch) (h : 0 ≤ idx) :
    adjustLight idx mc
      = .ok ⟨clampLight (f32 (mc.L + siblingDelta idx)), mc.C, mc.H, mc.Alpha⟩ := by
  have h1 : 0 ≤ Int.tmod idx 10 := Int.tmod_nonneg 10 h
  have h2 : Int.tmod idx 10 < 10 := Int.tmod_lt_of_pos idx (by norm_num)
  have hlen : (Int.tmod idx 10).toNat < offsets.length := by
    simp only [offsets, List.length_cons, List.length_nil]
    omega
  have hget : offsets.getD (Int.tmod idx 10).toNat 0 = offsets[(Int.tmod idx 10).toNat] := by
    simp [List.getD_eq_getElem?_getD, List.getElem?_eq_getElem hlen]
  have h10 : f32 ((offsets.length : ℕ) : ℚ) = f32 10 := rfl
  unfold adjustLight
  simp only [show ((offsets.length : ℕ) : ℤ) = 10 from rfl, not_lt.mpr h1, if_false,
    List.getElem?_eq_getElem hlen, siblingDelta, siblingOffset, lightDelta, clampLight, hget,
    h10]

theorem flameGraphColorFn_base (level idx : Int) (f : FlamegraphFrame) :
    flameGraphColorFn level idx f false = (baseColour level f.Name).bind (adjustLight idx) := by
  unfold flameGraphColorFn baseColour
  simp only [Bool.false_eq_true, if_false]
  cases (if level = 0 then rootColor f.Name else none) <;> rfl

theorem baseColour_total (level : Int) (name : GoString) :
    ∃ base, baseColour level name = .ok base := by
  unfold baseColour
  cases (if level = 0 then rootColor name else none) with
  | some ci => exact ⟨_, rfl⟩
  | none => exact provenanceColor_total name

theorem clampLight_range (l : ℚ) : 0 ≤ clampLight l ∧ clampLight l ≤ 1 := by
  unfold clampLight
  simp only
  split_ifs <;> constructor <;> linarith

theorem lightDelta_table :
    ∀ k, k < 10 →
      lightDelta (offsets.getD k 0)
          = f32 (f32 (f32 (offsets.getD k 0 / 10) * f32 0.17) - f32 0.05) ∧
      f32 (-0.05) ≤ lightDelta (offsets.getD k 0) ∧ lightDelta (offsets.getD k 0) ≤ f32 0.12 ∧
      ∀ j, j < 10 → j ≠ k → lightDelta (offsets.getD j 0) ≠ lightDelta (offsets.getD k 0) := by
  decide!

theorem offsets_perm : offsets.Perm [0, 1, 2, 3, 4, 5, 6, 7, 8, 9] := by
  decide!

theorem tmod_toNat_lt (idx : Int) (h : 0 ≤ idx) : (Int.tmod idx 10).toNat < 10 := by
  have h1 : 0 ≤ Int.tmod idx 10 := Int.tmod_nonneg 10 h
  have h2 : Int.tmod idx 10 < 10 := Int.tmod_lt_of_pos idx (by norm_num)
  omega

theorem siblingDelta_congr (idx idx2 : Int) (h : 0 ≤ idx) (h2 : 0 ≤ idx2)
    (hm : idx % 10 = idx2 % 10) : siblingDelta idx = siblingDelta idx2 := by
  unfold siblingDelta siblingOffset
  rw [Int.tmod_eq_emod h (by norm_num), Int.tmod_eq_emod h2 (by norm_num), hm]

theorem siblingDelta_distinct (idx : Int) (h : 0 ≤ idx) (i j : Nat) (hi : i < 10)
    (hj : j < 10) (hij : i ≠ j) : siblingDelta (idx + i) ≠ siblingDelta (idx + j) := by
  have hi0 : 0 ≤ idx + i := by omega
  have hj0 : 0 ≤ idx + j := by omega
  have hne : (Int.tmod (idx + i) 10).toNat ≠ (Int.tmod (idx + j) 10).toNat := by
    rw [Int.tmod_eq_emod hi0 (by norm_num), Int.tmod_eq_emod hj0 (by norm_num)]
    omega
  unfold siblingDelta siblingOffset
  exact (lightDelta_table _ (tmod_toNat_lt _ hj0)).2.2.2 _ (tmod_toNat_lt _ hi0) hne

/-- Claim C13. Sibling lightness perturbation: with `hovered = false` and a sibling index
that is not negative, the result is the base colour with only its lightness changed, to
`L_base + delta` clamped to the range from 0 to 1, where `delta` is
`(offsets[idx mod 10] / 10) * 0.17 - 0.05` in `float32`. The table `offsets` is a
permutation of 0, ..., 9; `delta` lies between the `float32` values of -0.05 and 0.12; ten
consecutive sibling indexes get ten distinct values of `delta`; the result depends on `idx`
only through `idx mod 10`; the lightness returned lies between 0 and 1; chroma, hue and
alpha are those of the base colour. -/
theorem sibling_lightness_perturbation (level idx : Int) (f : FlamegraphFrame)
    (hi : 0 ≤ idx) :
    ∃ base, baseColour level f.Name = .ok base ∧
      flameGraphColorFn level idx f false
        = .ok ⟨clampLight (f32 (base.L + siblingDelta idx)), base.C, base.H, base.Alpha⟩ ∧
      (siblingOffset idx = offsets.getD (idx % 10).toNat 0 ∧
        siblingDelta idx = f32 (f32 (f32 (siblingOffset idx / 10) * f32 0.17) - f32 0.05)) ∧
      offsets.Perm [0, 1, 2, 3, 4, 5, 6, 7, 8, 9] ∧
      (f32 (-0.05) ≤ siblingDelta idx ∧ siblingDelta idx ≤ f32 0.12) ∧
      (∀ i j : Nat, i < 10 → j < 10 → i ≠ j →
        siblingDelta (idx + i) ≠ siblingDelta (idx + j)) ∧
      (∀ idx2 : Int, 0 ≤ idx2 → idx % 10 = idx2 % 10 →
        flameGraphColorFn level idx f false = flameGraphColorFn level idx2 f false) ∧
      (0 ≤ clampLight (f32 (base.L + siblingDelta idx)) ∧
        clampLight (f32 (base.L + siblingDelta idx)) ≤ 1) := by
  obtain ⟨base, hb⟩ := baseColour_total level f.Name
  have hk := tmod_toNat_lt idx hi
  have htab := lightDelta_table _ hk
  have hem : Int.tmod idx 10 = idx % 10 := Int.tmod_eq_emod hi (by norm_num)
  refine ⟨base, hb, ?_, ?_, offsets_perm, ?_, ?_, ?_, clampLight_range _⟩
  · rw [flameGraphColorFn_base, hb]
    exact adjustLight_eq idx base hi
  · exact ⟨by unfold siblingOffset; rw [hem], htab.1⟩
  · exact ⟨htab.2.1, htab.2.2.1⟩
  · intro i j hi2 hj2 hij
    exact siblingDelta_distinct idx hi i j hi2 hj2 hij
  · intro idx2 h2 hm
    rw [flameGraphColorFn_base, flameGraphColorFn_base, hb]
    show adjustLight idx base = adjustLight idx2 base
    rw [adjustLight_eq idx base hi, adjustLight_eq idx2 base h2,
      siblingDelta_congr idx idx2 hi h2 hm]

/-- Claim C13, witness: the sibling 23 of a runtime frame reads the entry 8 of `offsets`. -/
theorem sibling_lightness_perturbation_witness :
    (0 : Int) ≤ 23 ∧
    (∃ base, baseColour 1 (⟨lit "runtime.main", 0⟩ : FlamegraphFrame).Name = .ok base ∧
      flameGraphColorFn 1 23 ⟨lit "runtime.main", 0⟩ false
        = .ok ⟨clampLight (f32 (base.L + siblingDelta 23)), base.C, base.H, base.Alpha⟩ ∧
      (siblingOffset 23 = offsets.getD ((23 : Int) % 10).toNat 0 ∧
        siblingDelta 23 = f32 (f32 (f32 (siblingOffset 23 / 10) * f32 0.17) - f32 0.05)) ∧
      offsets.Perm [0, 1, 2, 3, 4, 5, 6, 7, 8, 9] ∧
      (f32 (-0.05) ≤ siblingDelta 23 ∧ siblingDelta 23 ≤ f32 0.12) ∧
      (∀ i j : Nat, i < 10 → j < 10 → i ≠ j →
        siblingDelta (23 + i) ≠ siblingDelta (23 + j)) ∧
      (∀ idx2 : Int, 0 ≤ idx2 → (23 : Int) % 10 = idx2 % 10 →
        flameGraphColorFn 1 23 ⟨lit "runtime.main", 0⟩ false
          = flameGraphColorFn 1 idx2 ⟨lit "runtime.main", 0⟩ false) ∧
      (0 ≤ clampLight (f32 (base.L + siblingDelta 23)) ∧
        clampLight (f32 (base.L + siblingDelta 23)) ≤ 1)) ∧
    siblingOffset 23 = 8 ∧
    (flameGraphColorFn 1 23 ⟨lit "runtime.main", 0⟩ false).toOption.map (fun c => c.L)
      = some (f32 (f32 0.5639 + f32 (f32 (f32 (0.8 : ℚ) * f32 0.17) - f32 0.05))) :=
  ⟨by decide, sibling_lightness_perturbation 1 23 ⟨lit "runtime.main", 0⟩ (by decide),
    by decide!, by decide!⟩

/-- Claim C16, counterexample. The siblings 9 and 10 read the entries 5 and 4 of `offsets`
(the index wraps around to the first entry): their adjustments differ by one table step,
not by at least 5. -/
theorem wraparound_neighbours_close :
    siblingOffset 9 = 5 ∧ siblingOffset (9 + 1) = 4 ∧
    ¬ (5 ≤ |siblingOffset 9 - siblingOffset (9 + 1)|) := by
  decide!

theorem offsets_neighbours :
    ∀ k, k < 10 →
      (k ≠ 9 → 5 ≤ |offsets.getD k 0 - offsets.getD ((k + 1) % 10) 0|) ∧
      (k = 9 → |offsets.getD k 0 - offsets.getD ((k + 1) % 10) 0| = 1) := by
  decide!

theorem neighbour_of_four (l : List ℚ) (h : l.Perm [0, 1, 2, 3, 4, 5, 6, 7, 8, 9]) :
    ∃ k a b, l[k]? = some a ∧ l[k + 1]? = some b ∧ |a - b| ≤ 5 := by
  have hmem : ∀ x ∈ l, 0 ≤ x ∧ x ≤ 9 := by
    intro x hx
    have := h.subset hx
    simp only [List.mem_cons, List.mem_singleton, List.not_mem_nil, or_false] at this
    rcases this with h | h | h | h | h | h | h | h | h | h <;> subst h <;> norm_num
  have h4 : (4 : ℚ) ∈ l := by
    apply h.symm.subset
    simp
  have hlen : l.length = 10 := by rw [h.length_eq]; rfl
  obtain ⟨pre, post, hl⟩ := List.append_of_mem h4
  cases post with
  | cons y ys =>
    have hy := hmem y (by rw [hl]; simp)
    refine ⟨pre.length, 4, y, ?_, ?_, ?_⟩
    · rw [hl, List.getElem?_append_right (le_refl _)]; simp
    · rw [hl, List.getElem?_append_right (by omega)]; simp
    · rw [abs_le]; constructor <;> linarith [hy.1, hy.2]
  | nil =>
    have hpre : pre ≠ [] := by
      intro he
      rw [hl, he] at hlen
      simp at hlen
    obtain ⟨pre2, y, hp⟩ : ∃ pre2 y, pre = pre2 ++ [y] :=
      ⟨pre.dropLast, pre.getLast hpre, (List.dropLast_append_getLast hpre).symm⟩
    have hy := hmem y (by rw [hl, hp]; simp)
    refine ⟨pre2.length, y, 4, ?_, ?_, ?_⟩
    · rw [hl, hp, List.append_assoc, List.getElem?_append_right (le_refl _)]; simp
    · rw [hl, hp, List.append_assoc, List.getElem?_append_right (by omega)]; simp
    · rw [abs_le]; constructor <;> linarith [hy.1, hy.2]

/-- Claim C16, amended. For a sibling index `i` that is not negative and not 9 modulo 10,
the entries of `offsets` for the siblings `i` and `i + 1` differ by at least 5; for an
index that is 9 modulo 10 they differ by 1. Every ordering of the ten adjustments has two
neighbours that differ by at most 5, so that 5 is the largest least difference between
neighbours that an ordering of the table can reach. -/
theorem neighbouring_siblings_contrast (idx : Int) (hi : 0 ≤ idx) (h9 : idx % 10 ≠ 9) :
    5 ≤ |siblingOffset idx - siblingOffset (idx + 1)| ∧
    (∀ j : Int, 0 ≤ j → j % 10 = 9 → |siblingOffset j - siblingOffset (j + 1)| = 1) ∧
    (∀ l : List ℚ, l.Perm [0, 1, 2, 3, 4, 5, 6, 7, 8, 9] →
      ∃ k a b, l[k]? = some a ∧ l[k + 1]? = some b ∧ |a - b| ≤ 5) := by
  have key : ∀ j : Int, 0 ≤ j →
      siblingOffset j = offsets.getD (j % 10).toNat 0 ∧
      siblingOffset (j + 1) = offsets.getD (((j % 10).toNat + 1) % 10) 0 := by
    intro j hj
    unfold siblingOffset
    rw [Int.tmod_eq_emod hj (by norm_num), Int.tmod_eq_emod (by omega) (by norm_num)]
    refine ⟨rfl, ?_⟩
    congr 1
    omega
  refine ⟨?_, ?_, neighbour_of_four⟩
  · obtain ⟨e1, e2⟩ := key idx hi
    rw [e1, e2]
    exact (offsets_neighbours _ (by omega)).1 (by omega)
  · intro j hj hj9
    obtain ⟨e1, e2⟩ := key j hj
    rw [e1, e2]
    exact (offsets_neighbours _ (by omega)).2 (by omega)

/-- Claim C16, witness: the siblings 12 and 13 read the entries 3 and 8 of `offsets`. -/
theorem neighbouring_siblings_contrast_witness :
    ((0 : Int) ≤ 12 ∧ (12 : Int) % 10 ≠ 9) ∧
    (5 ≤ |siblingOffset 12 - siblingOffset (12 + 1)| ∧
      (∀ j : Int, 0 ≤ j → j % 10 = 9 → |siblingOffset j - siblingOffset (j + 1)| = 1) ∧
      (∀ l : List ℚ, l.Perm [0, 1, 2, 3, 4, 5, 6, 7, 8, 9] →
        ∃ k a b, l[k]? = some a ∧ l[k + 1]? = some b ∧ |a - b| ≤ 5)) ∧
    (siblingOffset 12 = 3 ∧ siblingOffset 13 = 8) :=
  ⟨⟨by decide, by decide⟩, neighbouring_siblings_contrast 12 (by decide) (by decide),
    by decide!⟩

theorem samples_empty_of_count (l : List (Nat × List Nat))
    (h : (l.map (fun kv => kv.2.length)).sum = 0) : ∀ kv ∈ l, kv.2 = [] := by
  induction l with
  | nil => intro kv hkv; cases hkv
  | cons a rest ih =>
    simp only [List.map_cons, List.sum_cons] at h
    intro kv hkv
    rcases List.mem_cons.mp hkv with hk | hk
    · subst hk
      exact List.length_eq_zero.mp (by omega)
    · exact ih (by omega) kv hk

theorem lookup_mem (l : List (Nat × List Nat)) (id : Nat) (v : List Nat)
    (h : l.lookup id = some v) : (id, v) ∈ l := by
  induction l with
  | nil => simp at h
  | cons a rest ih =>
    obtain ⟨k, w⟩ := a
    by_cases hk : id = k
    · subst hk
      simp only [List.lookup_cons, beq_self_eq_true, Option.some.injEq] at h
      subst h
      simp
    · have hb : (id == k) = false := by simpa using hk
      simp only [List.lookup_cons, hb] at h
      exact List.mem_cons_of_mem _ (ih h)

theorem cpuSamplesOf_of_count (t : Trace) (h : sampleCount t = 0) (id : Nat) :
    cpuSamplesOf t id = [] := by
  unfold cpuSamplesOf
  cases hl : t.CPUSamples.lookup id with
  | none => rfl
  | some v =>
    have := samples_empty_of_count t.CPUSamples h (id, v) (lookup_mem _ _ _ hl)
    simpa using this

theorem flatMap_samples_of_count (t : Trace) (h : sampleCount t = 0) :
    t.CPUSamples.flatMap (fun kv => kv.2) = [] := by
  rw [List.flatMap_eq_nil_iff]
  exact samples_empty_of_count t.CPUSamples h

theorem buildFlameGraph_of_count (indef : Int → Nat → Int) (t : Trace)
    (h : sampleCount t = 0) (g : Option Goroutine) :
    buildFlameGraph indef t g
      = match g with
        | none => .ok []
        | some g => spansLoop t g.Spans [] := by
  cases g with
  | none =>
    simp only [buildFlameGraph, rangeSamples_eq, flatMap_samples_of_count t h]
    rfl
  | some g =>
    simp only [buildFlameGraph, doSamples_eq, cpuSamplesOf_of_count t h]
    rfl

/-- Claim C14. Degenerate input does not fail: for a trace without CPU samples, whatever its
processor time, the whole-trace flame graph gets no sample, `Compute` is called once after
the empty aggregation and the graph is returned. The sample count is zero and the sample
interval is the undefined value of the division, which no frame carries: in the view of a
goroutine the samples are those of the loop over its spans, and the result is the same for
every value of the undefined interval. -/
theorem degenerate_input_does_not_fail (indef : Int → Nat → Int) (t : Trace)
    (h : sampleCount t = 0) :
    flameGraphFuture indef t none = .ok [.Compute] ∧
    buildFlameGraph indef t none = .ok [] ∧
    (totalSamples t = 0 ∧ sampleDuration indef t = indef (totalDuration t) 0) ∧
    (∀ g : Goroutine, buildFlameGraph indef t (some g) = spansLoop t g.Spans []) ∧
    (∀ (indef2 : Int → Nat → Int) (g : Option Goroutine),
      flameGraphFuture indef t g = flameGraphFuture indef2 t g) := by
  have hnone := buildFlameGraph_of_count indef t h none
  have hts : totalSamples t = 0 := by rw [totalSamples_eq, h]; rfl
  refine ⟨?_, hnone, ⟨hts, ?_⟩, ?_, ?_⟩
  · unfold flameGraphFuture
    rw [hnone]
    rfl
  · unfold sampleDuration
    simp only [hts, if_true]
  · intro g
    exact buildFlameGraph_of_count indef t h (some g)
  · intro indef2 g
    unfold flameGraphFuture
    rw [buildFlameGraph_of_count indef t h g, buildFlameGraph_of_count indef2 t h g]

/-- Claim C14, witness: a trace with 1000 nanoseconds of processor time and no CPU sample;
the view of a goroutine with a span blocked on the network has the sample of that span. -/
theorem degenerate_input_does_not_fail_witness :
    sampleCount idleTrace = 0 ∧
    (flameGraphFuture (fun _ _ => -9223372036854775808) idleTrace none = .ok [.Compute] ∧
      buildFlameGraph (fun _ _ => -9223372036854775808) idleTrace none = .ok [] ∧
      (totalSamples idleTrace = 0 ∧
        sampleDuration (fun _ _ => -9223372036854775808) idleTrace
          = (fun _ _ => -9223372036854775808) (totalDuration idleTrace) 0) ∧
      (∀ g : Goroutine,
        buildFlameGraph (fun _ _ => -9223372036854775808) idleTrace (some g)
          = spansLoop idleTrace g.Spans []) ∧
      (∀ (indef2 : Int → Nat → Int) (g : Option Goroutine),
        flameGraphFuture (fun _ _ => -9223372036854775808) idleTrace g
          = flameGraphFuture indef2 idleTrace g)) ∧
    (flameGraphFuture (fun _ _ => -9223372036854775808) idleTrace
        (some ⟨1, [⟨StateBlockedNet, 0, 7⟩]⟩)).toOption
      = some [.AddSample ⟨[⟨[4], 7⟩, ⟨[3], 7⟩], lit "I/O"⟩, .Compute] :=
  ⟨by decide,
    degenerate_input_does_not_fail (fun _ _ => -9223372036854775808) idleTrace (by decide),
    by decide!⟩

/-- Claim C19, failing input: one enabled series whose only point has the time 0 and the
value 0, over the range from 0 to the largest timestamp. The point is considered, the loop
ends with `min = max = 0`, `min--` wraps around to `2 ^ 64 - 1`, and `computeExtents` returns
the pair `(18446744073709551615, 1)`: `min` is above the value 0 of the point and above
`max`. -/
theorem extents_of_zero_series :
    consideredPoints 0 (2 ^ 63 - 1) ⟨[⟨0, 0⟩], false⟩ = [⟨0, 0⟩] ∧
    computeExtents [⟨[⟨0, 0⟩], false⟩] 0 (2 ^ 63 - 1) = (18446744073709551615, 1) ∧
    ¬ (computeExtents [⟨[⟨0, 0⟩], false⟩] 0 (2 ^ 63 - 1)).1 ≤ (⟨0, 0⟩ : Point).Value ∧
    ¬ (computeExtents [⟨[⟨0, 0⟩], false⟩] 0 (2 ^ 63 - 1)).1
        ≤ (computeExtents [⟨[⟨0, 0⟩], false⟩] 0 (2 ^ 63 - 1)).2 := by
  decide!

theorem scanPoints_spec (end_ : Int) (ps : List Point) :
    ∀ mm : Nat × Nat,
      (scanPoints end_ ps mm).1 ≤ mm.1 ∧ mm.2 ≤ (scanPoints end_ ps mm).2 ∧
      ∀ p ∈ ps.takeWhile (fun p => decide (p.When < end_)),
        (scanPoints end_ ps mm).1 ≤ p.Value ∧ p.Value ≤ (scanPoints end_ ps mm).2 := by
  induction ps with
  | nil => intro mm; simp [scanPoints]
  | cons q rest ih =>
    intro mm
    unfold scanPoints
    by_cases hq : q.When ≥ end_
    · have hd : decide (q.When < end_) = false := by simpa using hq
      simp [hq, List.takeWhile_cons, hd]
    · have hd : decide (q.When < end_) = true := by simpa using hq
      simp only [hq, if_false, List.takeWhile_cons, hd, if_true]
      have hmn : (if q.Value < mm.1 then q.Value else mm.1) ≤ mm.1 ∧
          (if q.Value < mm.1 then q.Value else mm.1) ≤ q.Value := by
        split_ifs <;> omega
      have hmx : mm.2 ≤ (if q.Value > mm.2 then q.Value else mm.2) ∧
          q.Value ≤ (if q.Value > mm.2 then q.Value else mm.2) := by
        split_ifs <;> omega
      generalize (if q.Value < mm.1 then q.Value else mm.1) = mn at hmn ⊢
      generalize (if q.Value > mm.2 then q.Value else mm.2) = mx at hmx ⊢
      obtain ⟨h1, h2, h3⟩ := ih (mn, mx)
      simp only at h1 h2
      refine ⟨by omega, by omega, ?_⟩
      intro p hp
      rcases List.mem_cons.mp hp with hp | hp
      · subst hp
        exact ⟨by omega, by omega⟩
      · exact h3 p hp

theorem seriesExtents_spec (start end_ : Int) (mm : Nat × Nat) (s : PlotSeries) :
    (seriesExtents start end_ mm s).1 ≤ mm.1 ∧ mm.2 ≤ (seriesExtents start end_ mm s).2 ∧
    ∀ p ∈ consideredPoints start end_ s,
      (seriesExtents start end_ mm s).1 ≤ p.Value ∧
        p.Value ≤ (seriesExtents start end_ mm s).2 := by
  unfold seriesExtents consideredPoints
  cases hdis : s.disabled with
  | true => simp
  | false =>
    simp only [Bool.false_eq_true, if_false]
    exact scanPoints_spec end_ _ mm

theorem foldExtents_spec (start end_ : Int) (series : List PlotSeries) :
    ∀ mm : Nat × Nat,
      (series.foldl (seriesExtents start end_) mm).1 ≤ mm.1 ∧
      mm.2 ≤ (series.foldl (seriesExtents start end_) mm).2 ∧
      ∀ s ∈ series, ∀ p ∈ consideredPoints start end_ s,
        (series.foldl (seriesExtents start end_) mm).1 ≤ p.Value ∧
          p.Value ≤ (series.foldl (seriesExtents start end_) mm).2 := by
  induction series with
  | nil => intro mm; simp
  | cons s rest ih =>
    intro mm
    rw [List.foldl_cons]
    obtain ⟨a1, a2, a3⟩ := seriesExtents_spec start end_ mm s
    obtain ⟨b1, b2, b3⟩ := ih (seriesExtents start end_ mm s)
    refine ⟨le_trans b1 a1, le_trans a2 b2, ?_⟩
    intro s2 hs2 p hp
    rcases List.mem_cons.mp hs2 with h | h
    · subst h
      obtain ⟨c1, c2⟩ := a3 p hp
      exact ⟨le_trans b1 c1, le_trans c2 b2⟩
    · exact b3 s2 h p hp

/-- The loop of `computeExtents` encloses the values of the points that it considers. -/
theorem loopExtents_enclose (series : List PlotSeries) (start end_ : Int) :
    ∀ s ∈ series, ∀ p ∈ consideredPoints start end_ s,
      (loopExtents series start end_).1 ≤ p.Value ∧
        p.Value ≤ (loopExtents series start end_).2 :=
  (foldExtents_spec start end_ series (2 ^ 64 - 1, 0)).2.2

/-- The widening keeps a pair `lo ≤ hi` enclosed when none of its operations wraps around:
`lo` and `hi` are not both 0 or both the largest value, and `hi` plus a tenth of the
distance stays below `2 ^ 64`. -/
theorem widenExtents_encloses (lo hi : Nat) (h : lo ≤ hi)
    (hz : lo = hi → 0 < lo ∧ hi + 1 < 2 ^ 64) (hw : hi + (hi - lo) / 10 < 2 ^ 64) :
    (widenExtents (lo, hi)).1 ≤ lo ∧ hi ≤ (widenExtents (lo, hi)).2 := by
  have hM : (2 : ℕ) ^ 64 = 18446744073709551616 := by norm_num
  rw [hM] at hz hw
  unfold widenExtents
  simp only [hM]
  by_cases he : lo = hi
  · obtain ⟨h0, h1⟩ := hz he
    subst he
    simp only [if_true]
    have e1 : (lo + (18446744073709551616 - 1)) % 18446744073709551616 = lo - 1 := by omega
    have e2 : (lo + 1) % 18446744073709551616 = lo + 1 := by omega
    rw [e1, e2]
    have e3 : (lo + 1 + (18446744073709551616 - (lo - 1))) % 18446744073709551616 = 2 := by
      omega
    rw [e3]
    constructor
    · split_ifs <;> omega
    · omega
  · simp only [he, if_false]
    have e3 : (hi + (18446744073709551616 - lo)) % 18446744073709551616 = hi - lo := by
      omega
    rw [e3]
    have e4 : (hi + (hi - lo) / 10) % 18446744073709551616 = hi + (hi - lo) / 10 := by
      omega
    rw [e4]
    constructor
    · split_ifs <;> omega
    · omega

theorem foldl_seriesExtents_filter (start end_ : Int) (series : List PlotSeries) :
    ∀ mm : Nat × Nat,
      series.foldl (seriesExtents start end_) mm
        = (series.filter (fun s => !s.disabled)).foldl (seriesExtents start end_) mm := by
  induction series with
  | nil => intro mm; rfl
  | cons s rest ih =>
    intro mm
    cases hdis : s.disabled with
    | true =>
      have : seriesExtents start end_ mm s = mm := by simp [seriesExtents, hdis]
      simp [List.filter_cons, hdis, this, ih]
    | false =>
      simp [List.filter_cons, hdis, ih]

/-- Disabled series do not influence the result of `computeExtents`. -/
theorem computeExtents_ignores_disabled (series : List PlotSeries) (start end_ : Int) :
    computeExtents series start end_
      = computeExtents (series.filter (fun s => !s.disabled)) start end_ := by
  unfold computeExtents
  rw [foldl_seriesExtents_filter]

/-- The result of `computeExtents` encloses the values of the points that it considers when
the widening does not wrap around. -/
theorem computeExtents_encloses (series : List PlotSeries) (start end_ : Int)
    (hz : (loopExtents series start end_).1 = (loopExtents series start end_).2 →
      0 < (loopExtents series start end_).1 ∧ (loopExtents series start end_).2 + 1 < 2 ^ 64)
    (hw : (loopExtents series start end_).2
      + ((loopExtents series start end_).2 - (loopExtents series start end_).1) / 10 < 2 ^ 64)
    (s : PlotSeries) (hs : s ∈ series) (p : Point) (hp : p ∈ consideredPoints start end_ s) :
    (computeExtents series start end_).1 ≤ p.Value ∧
      p.Value ≤ (computeExtents series start end_).2 := by
  obtain ⟨h1, h2⟩ := loopExtents_enclose series start end_ s hs p hp
  obtain ⟨w1, w2⟩ := widenExtents_encloses _ _ (le_trans h1 h2) hz hw
  exact ⟨le_trans w1 h1, le_trans h2 w2⟩

theorem spanStep_uniform (t : Trace) (span : Span) (fg fg1 : List AddSampleCall)
    (h : spanStep t span fg = .ok fg1) :
    ∃ cs, fg1 = fg ++ cs ∧ ∀ fg0, spanStep t span fg0 = .ok (fg0 ++ cs) := by
  unfold spanStep at h ⊢
  cases hr : spanRoot span.State with
  | error e => rw [hr] at h; cases h
  | ok root =>
    rw [hr] at h
    simp only [Except.ok.injEq] at h
    subst h
    by_cases h0 : root = []
    · exact ⟨[], by simp [addSpanSample, h0], fun fg0 => by simp [addSpanSample, h0]⟩
    · exact ⟨[⟨if root ≠ lit "ready" then
            appendFrames t (t.Stacks (t.Event span.Event).StkID) span.Duration
              (t.Stacks (t.Event span.Event).StkID).length []
          else [], root⟩],
        by simp [addSpanSample, h0], fun fg0 => by simp [addSpanSample, h0]⟩

theorem spansLoop_decompose (t : Trace) (spans : List Span) :
    ∀ (fg calls : List AddSampleCall), spansLoop t spans fg = .ok calls →
      ∃ per : List (List AddSampleCall), calls = fg ++ per.flatten ∧
        List.Forall₂ (fun span cs => ∀ fg0, spanStep t span fg0 = .ok (fg0 ++ cs))
          spans per := by
  induction spans with
  | nil =>
    intro fg calls h
    simp only [spansLoop, Except.ok.injEq] at h
    exact ⟨[], by simp [h], List.Forall₂.nil⟩
  | cons span rest ih =>
    intro fg calls h
    rw [spansLoop] at h
    cases hs : spanStep t span fg with
    | error e => rw [hs] at h; cases h
    | ok fg1 =>
      rw [hs] at h
      obtain ⟨cs, h1, hcs⟩ := spanStep_uniform t span fg fg1 hs
      obtain ⟨per, h2, hper⟩ := ih fg1 calls h
      refine ⟨cs :: per, ?_, List.Forall₂.cons hcs hper⟩
      rw [h2, h1, List.flatten_cons, List.append_assoc]

theorem goroutineView_decompose (indef : Int → Nat → Int) (t : Trace) (g : Goroutine)
    (calls : List AddSampleCall) (h : buildFlameGraph indef t (some g) = .ok calls) :
    ∃ per : List (List AddSampleCall),
      calls = (cpuSamplesOf t g.ID).map (runningCall t (sampleDuration indef t))
        ++ per.flatten ∧
      List.Forall₂ (fun span cs => ∀ fg0, spanStep t span fg0 = .ok (fg0 ++ cs))
        g.Spans per := by
  simp only [buildFlameGraph, doSamples_eq, List.nil_append] at h
  exact spansLoop_decompose t g.Spans _ calls h

theorem goroutineView_returns (indef : Int → Nat → Int) (t : Trace) (g : Goroutine)
    (h : ∀ span ∈ g.Spans, namedInSwitch span.State = true) :
    ∃ calls, buildFlameGraph indef t (some g) = .ok calls := by
  cases hb : buildFlameGraph indef t (some g) with
  | ok calls => exact ⟨calls, rfl⟩
  | error e =>
    exfalso
    have hf : ∃ e, spansLoop t g.Spans
        (doSamples t (sampleDuration indef t) (cpuSamplesOf t g.ID) []) = .error e :=
      ⟨e, hb⟩
    obtain ⟨span, hmem, hun⟩ := (spansLoop_fails_iff t g.Spans _).mp hf
    rw [h span hmem] at hun
    cases hun

theorem contribution_of_addsOne (t : Trace) (span : Span) (cat : GoString)
    (cs : List AddSampleCall) (h1 : AddsOneUnder t span cat)
    (hcs : ∀ fg0, spanStep t span fg0 = .ok (fg0 ++ cs)) :
    ∃ frames, cs = [⟨frames, cat⟩] := by
  obtain ⟨frames, hf⟩ := h1 []
  have := hcs []
  rw [hf] at this
  simp only [List.nil_append, Except.ok.injEq] at this
  exact ⟨frames, this.symm⟩

theorem contribution_of_addsNone (t : Trace) (span : Span)
    (cs : List AddSampleCall) (h1 : AddsNone t span)
    (hcs : ∀ fg0, spanStep t span fg0 = .ok (fg0 ++ cs)) : cs = [] := by
  have := hcs []
  rw [h1 []] at this
  simp only [List.nil_append, Except.ok.injEq] at this
  exact this.symm

/-- Claim C2. State-to-category mapping in goroutine views. The calls that the view of a
goroutine makes are the calls for its CPU samples followed, span by span and in the order
of `g.Spans`, by the calls of the spans. The root category of a span is fixed by its state
alone: a span in one of the states below adds exactly one sample, under the category shown,
and a span whose state is Active, Inactive or GCIdle adds no sample. The view returns its
calls whenever every span of the goroutine has a state that the switch names. -/
theorem state_category_mapping (indef : Int → Nat → Int) (t : Trace) (g : Goroutine) :
    (∀ calls, buildFlameGraph indef t (some g) = .ok calls →
      ∃ per : List (List AddSampleCall),
        calls = (cpuSamplesOf t g.ID).map (runningCall t (sampleDuration indef t))
          ++ per.flatten ∧
        List.Forall₂
          (fun span cs =>
            (span.State = StateBlocked → ∃ frames, cs = [⟨frames, lit "blocked"⟩]) ∧
            (span.State = StateBlockedSend → ∃ frames, cs = [⟨frames, lit "send"⟩]) ∧
            (span.State = StateBlockedRecv → ∃ frames, cs = [⟨frames, lit "recv"⟩]) ∧
            (span.State = StateBlockedSelect → ∃ frames, cs = [⟨frames, lit "select"⟩]) ∧
            (span.State = StateBlockedSync → ∃ frames, cs = [⟨frames, lit "sync"⟩]) ∧
            (span.State = StateBlockedSyncOnce →
              ∃ frames, cs = [⟨frames, lit "sync.Once"⟩]) ∧
            (span.State = StateBlockedSyncTriggeringGC →
              ∃ frames, cs = [⟨frames, lit "triggering GC"⟩]) ∧
            (span.State = StateBlockedCond → ∃ frames, cs = [⟨frames, lit "sync.Cond"⟩]) ∧
            (span.State = StateBlockedNet → ∃ frames, cs = [⟨frames, lit "I/O"⟩]) ∧
            (span.State = StateBlockedGC → ∃ frames, cs = [⟨frames, lit "GC"⟩]) ∧
            (span.State = StateBlockedSyscall →
              ∃ frames, cs = [⟨frames, lit "blocking syscall"⟩]) ∧
            (span.State = StateReady ∨ span.State = StateCreated →
              ∃ frames, cs = [⟨frames, lit "ready"⟩]) ∧
            (span.State = StateActive ∨ span.State = StateInactive ∨
              span.State = StateGCIdle → cs = []))
          g.Spans per) ∧
    ((∀ span ∈ g.Spans, namedInSwitch span.State = true) →
      ∃ calls, buildFlameGraph indef t (some g) = .ok calls) := by
  refine ⟨?_, goroutineView_returns indef t g⟩
  intro calls h
  obtain ⟨per, hcalls, hper⟩ := goroutineView_decompose indef t g calls h
  refine ⟨per, hcalls, hper.imp ?_⟩
  intro span cs hcs
  obtain ⟨h1, h2, h3, h4, h5, h6, h7, h8, h9, h10, h11, h12, h13⟩ := spanStep_category t span
  exact ⟨fun hs => contribution_of_addsOne t span _ cs (h1 hs) hcs,
    fun hs => contribution_of_addsOne t span _ cs (h2 hs) hcs,
    fun hs => contribution_of_addsOne t span _ cs (h3 hs) hcs,
    fun hs => contribution_of_addsOne t span _ cs (h4 hs) hcs,
    fun hs => contribution_of_addsOne t span _ cs (h5 hs) hcs,
    fun hs => contribution_of_addsOne t span _ cs (h6 hs) hcs,
    fun hs => contribution_of_addsOne t span _ cs (h7 hs) hcs,
    fun hs => contribution_of_addsOne t span _ cs (h8 hs) hcs,
    fun hs => contribution_of_addsOne t span _ cs (h9 hs) hcs,
    fun hs => contribution_of_addsOne t span _ cs (h10 hs) hcs,
    fun hs => contribution_of_addsOne t span _ cs (h11 hs) hcs,
    fun hs => contribution_of_addsOne t span _ cs (h12 hs) hcs,
    fun hs => contribution_of_addsNone t span cs (h13 hs) hcs⟩

/-- Claim C5, amended. In the view of a goroutine, whose calls are those for its CPU samples
followed span by span by the calls of the spans of `g.Spans`, every span whose state is a
blocked variant (GC-related blocking among them), or ready or created, contributes exactly
one sample to the flame graph, under the non-empty root category of its state; a stuck span
contributes none. The view returns its calls whenever every span of the goroutine has a
state that the switch names. -/
theorem interesting_spans_sampled (indef : Int → Nat → Int) (t : Trace) (g : Goroutine) :
    (∀ calls, buildFlameGraph indef t (some g) = .ok calls →
      ∃ per : List (List AddSampleCall),
        calls = (cpuSamplesOf t g.ID).map (runningCall t (sampleDuration indef t))
          ++ per.flatten ∧
        List.Forall₂
          (fun span cs =>
            (isBlockedState span.State = true ∨ isReadyState span.State = true →
              ∃ c, cs = [c] ∧ spanRoot span.State = .ok c.root ∧ c.root ≠ []) ∧
            (span.State = StateStuck → cs = []))
          g.Spans per) ∧
    ((∀ span ∈ g.Spans, namedInSwitch span.State = true) →
      ∃ calls, buildFlameGraph indef t (some g) = .ok calls) := by
  refine ⟨?_, goroutineView_returns indef t g⟩
  intro calls h
  obtain ⟨per, hcalls, hper⟩ := goroutineView_decompose indef t g calls h
  refine ⟨per, hcalls, hper.imp ?_⟩
  intro span cs hcs
  obtain ⟨h1, h2⟩ := spanStep_interesting t span
  constructor
  · intro hs
    have key : ∃ cat, spanRoot span.State = .ok cat ∧ cat ≠ [] := by
      cases hst : span.State <;> rw [hst] at hs <;>
        first
          | exact ⟨_, rfl, by decide!⟩
          | (exfalso; simp [isBlockedState, isReadyState] at hs)
    obtain ⟨cat, hc1, hc2⟩ := key
    obtain ⟨frames, hf⟩ :=
      contribution_of_addsOne t span cat cs (addsOne_of_root t span cat hc1 hc2) hcs
    exact ⟨⟨frames, cat⟩, hf, hc1, hc2⟩
  · intro hs
    exact contribution_of_addsNone t span cs (h2 hs) hcs

end Gotraceui
